import Mathlib

/-! Prefix trie over bracketed tokens (`projeto2.cpp`).

A shallow embedding of the trie (`TrieNode`, `Trie`) and of the two loops of
`main` (token extraction, query answering), followed by the properties proved
about them.

Modelling conventions.
* A `std::string` is a `List Char`; only equality of characters is used.
* `unordered_map<char, TrieNode*>` is an association list searched from the
  front.  `find` is `children.find(ch)`, `assign` is `children[ch] = node`
  (overwrite the entry when the key is present, add one otherwise).
* A `TrieNode*` reached through the map is never null, so the `nullptr` test
  of `countWords` has no counterpart.
* The `int` fields `startPos` and `lineLength` are `Int`; the conversions of
  `main` from `size_t` to `int` go through `toInt32` (reduction modulo `2^32`
  into the signed range).
* `countWords` returns a `Nat`: it counts nodes, and the model is exact as long
  as that number fits in an `int`.
-/

/-- A node of the trie: `children`, `isEndOfWord`, `startPos`, `lineLength`. -/
inductive TrieNode where
  | mk (children : List (Char × TrieNode)) (isEndOfWord : Bool)
      (startPos : Int) (lineLength : Int)

namespace TrieNode

/-- The field `children`. -/
def children : TrieNode → List (Char × TrieNode)
  | mk cs _ _ _ => cs

/-- The field `isEndOfWord`. -/
def isEndOfWord : TrieNode → Bool
  | mk _ e _ _ => e

/-- The field `startPos`. -/
def startPos : TrieNode → Int
  | mk _ _ s _ => s

/-- The field `lineLength`. -/
def lineLength : TrieNode → Int
  | mk _ _ _ l => l

/-- The constructor `TrieNode()`: no children, not terminal, position `(-1, 0)`. -/
def new : TrieNode := mk [] false (-1) 0

/-- The lookup `children.find(ch)`; `none` stands for `children.end()`. -/
def find : List (Char × TrieNode) → Char → Option TrieNode
  | [], _ => none
  | (c, t) :: rest, ch => if c = ch then some t else find rest ch

/-- The assignment `children[ch] = node`. -/
def assign : List (Char × TrieNode) → Char → TrieNode → List (Char × TrieNode)
  | [], ch, n => [(ch, n)]
  | (c, t) :: rest, ch, n => if c = ch then (c, n) :: rest else (c, t) :: assign rest ch n

mutual
/-- The recursive count `Trie::countWords(node)`. -/
def countWords : TrieNode → Nat
  | mk cs e _ _ => (if e then 1 else 0) + countWordsChildren cs
/-- The `for (auto& child : node->children)` loop of `countWords`. -/
def countWordsChildren : List (Char × TrieNode) → Nat
  | [] => 0
  | (_, t) :: rest => countWords t + countWordsChildren rest
end

/-- The body of `Trie::insert`, started at node `current`. -/
def insertFrom : TrieNode → List Char → Int → Int → TrieNode
  | mk cs _ _ _, [], sp, ll => mk cs true sp ll
  | mk cs e s l, ch :: rest, sp, ll =>
    match find cs ch with
    | none => mk (assign cs ch (insertFrom new rest sp ll)) e s l
    | some child => mk (assign cs ch (insertFrom child rest sp ll)) e s l

/-- The body of `Trie::countWordsWithPrefix`, started at node `current`. -/
def countFrom : TrieNode → List Char → Nat
  | current, [] => countWords current
  | current, ch :: rest =>
    match find current.children ch with
    | none => 0
    | some child => countFrom child rest

/-- The body of `Trie::getPositionAndLength`, started at node `current`. -/
def positionFrom : TrieNode → List Char → Int × Int
  | current, [] => (current.startPos, current.lineLength)
  | current, ch :: rest =>
    match find current.children ch with
    | none => (-1, 0)
    | some child => positionFrom child rest

/-- Whether the walk along `word` from `current` ends on a terminal node. -/
def terminalAt : TrieNode → List Char → Bool
  | current, [] => current.isEndOfWord
  | current, ch :: rest =>
    match find current.children ch with
    | none => false
    | some child => terminalAt child rest

end TrieNode

/-- The class `Trie`: it owns the root node. -/
structure Trie where
  root : TrieNode

namespace Trie

/-- The constructor `Trie()`. -/
def new : Trie := ⟨TrieNode.new⟩

/-- The method `Trie::insert(word, startPos, lineLength)`. -/
def insert (t : Trie) (word : List Char) (startPos lineLength : Int) : Trie :=
  ⟨t.root.insertFrom word startPos lineLength⟩

/-- The method `Trie::countWordsWithPrefix(prefix)`. -/
def countWordsWithPrefix (t : Trie) (pfx : List Char) : Nat :=
  t.root.countFrom pfx

/-- The method `Trie::getPositionAndLength(word)`. -/
def getPositionAndLength (t : Trie) (word : List Char) : Int × Int :=
  t.root.positionFrom word

/-- Whether `word` ends on a terminal node of the trie. -/
def isTerminal (t : Trie) (word : List Char) : Bool :=
  t.root.terminalAt word

/-- A sequence of `insert` calls, applied in order. -/
def insertAll (t : Trie) (recs : List (List Char × Int × Int)) : Trie :=
  recs.foldl (fun acc r => acc.insert r.1 r.2.1 r.2.2) t

end Trie

/-! ## The extraction loop of `main` -/

/-- Conversion of an integer to a 32-bit signed `int` (two's complement wrap). -/
def toInt32 (n : Int) : Int := (n + 2 ^ 31) % 2 ^ 32 - 2 ^ 31

/-- The call `line.find(c)`: index of the first `c`; `none` stands for `npos`. -/
def findChar : List Char → Char → Option Nat
  | [], _ => none
  | x :: rest, c => if x = c then some 0 else (findChar rest c).map (· + 1)

/-- The call `line.substr(pos, len)` for `pos` within the line. -/
def substr (line : List Char) (pos len : Nat) : List Char :=
  (line.drop pos).take len

/-- Lines 111-114: the token of a line, if the bracket test succeeds. -/
def extractToken (line : List Char) : Option (List Char) :=
  match findChar line '[', findChar line ']' with
  | some start, some stop =>
    if stop > start + 1 then some (substr line (start + 1) (stop - start - 1)) else none
  | _, _ => none

/-- The state of the extraction loop: the trie, the accumulator `startPos`, and
the list of `insert` calls made so far (kept for the statements only). -/
structure BuildState where
  trie : Trie
  startPos : Int
  calls : List (List Char × Int × Int)

/-- One iteration of `while (getline(file, line))`. -/
def processLine (st : BuildState) (line : List Char) : BuildState :=
  let next := toInt32 (st.startPos + (line.length : Int) + 1)
  match extractToken line with
  | some word =>
    let len := toInt32 (line.length : Int)
    ⟨st.trie.insert word st.startPos len, next, st.calls ++ [(word, st.startPos, len)]⟩
  | none => ⟨st.trie, next, st.calls⟩

/-- The whole extraction loop over the lines of the file. -/
def buildTrie (lines : List (List Char)) : BuildState :=
  lines.foldl processLine ⟨Trie.new, 0, []⟩

/-! ## The query loop of `main` -/

/-- A line printed by the query loop. -/
inductive OutLine where
  | isPrefixOf (word : List Char) (count : Nat)
  | isAt (word : List Char) (startPos lineLength : Int)
  | isNotPrefix (word : List Char)
  deriving DecidableEq

/-- One iteration of the query loop for a word other than `"0"`: the lines
printed, in order. -/
def queryStep (t : Trie) (word : List Char) : List OutLine :=
  let count := t.countWordsWithPrefix word
  if count > 0 then
    let pos := t.getPositionAndLength word
    if pos.1 ≠ -1 then
      [OutLine.isPrefixOf word count, OutLine.isAt word pos.1 pos.2]
    else
      [OutLine.isPrefixOf word count]
  else
    [OutLine.isNotPrefix word]

/-! ## Reference definitions used in the statements -/

/-- The texts of a list of records. -/
def textsOf (recs : List (List Char × Int × Int)) : List (List Char) :=
  recs.map (fun r => r.1)

/-- Brute-force scan: the number of distinct texts of `recs` that start with `pfx`. -/
def bruteForceCount (recs : List (List Char × Int × Int)) (pfx : List Char) : Nat :=
  ((textsOf recs).dedup.filter (fun w => pfx.isPrefixOf w)).length

/-- The call `line.find(c, pos)`: index of the first `c` at or after `pos`. -/
def findCharFrom (line : List Char) (c : Char) (pos : Nat) : Option Nat :=
  (findChar (line.drop pos) c).map (· + pos)

/-- The extraction as the specification words it: the first `[`, then the first
`]` that appears after it, and a non-empty text strictly between the two. -/
def specExtractToken (line : List Char) : Option (List Char) :=
  match findChar line '[' with
  | none => none
  | some start =>
    match findCharFrom line ']' (start + 1) with
    | none => none
    | some stop =>
      if stop > start + 1 then some (substr line (start + 1) (stop - start - 1)) else none

/-- The number of characters before line `i` of the file, each earlier line
counted with one terminator: the sum over `j < i` of `length (l_j) + 1`. -/
def lineOffset (lines : List (List Char)) (i : Nat) : Int :=
  ((lines.take i).map (fun l => (l.length : Int) + 1)).sum

/-- The record the specification expects for line `i`: its token, the offset of
the line and the length of the line; `none` when the line yields no token. -/
def expectedRecord (lines : List (List Char)) (i : Nat) : Option (List Char × Int × Int) :=
  (extractToken (lines.getD i [])).map
    (fun w => (w, lineOffset lines i, ((lines.getD i []).length : Int)))

/-- The records the specification expects for a file, in line order. -/
def expectedRecords (lines : List (List Char)) : List (List Char × Int × Int) :=
  (List.range lines.length).filterMap (expectedRecord lines)

/-! ## Nodes and paths -/

namespace TrieNode

/-- The walk shared by `insert`, `countWordsWithPrefix` and
`getPositionAndLength`: the node reached from `current` along `word`, `none`
when some character has no matching child. -/
def walk : TrieNode → List Char → Option TrieNode
  | current, [] => some current
  | current, ch :: rest =>
    match find current.children ch with
    | none => none
    | some child => walk child rest

/-- The data stored on a node: `isEndOfWord`, `startPos`, `lineLength`. -/
def fields (n : TrieNode) : Bool × Int × Int :=
  (n.isEndOfWord, n.startPos, n.lineLength)

/-- The data of the node reached along `word`, if there is one. -/
def fieldsAt (current : TrieNode) (word : List Char) : Option (Bool × Int × Int) :=
  (walk current word).map fields

mutual
/-- All the nodes of the subtree rooted at a node, the node itself first. -/
def subnodes : TrieNode → List TrieNode
  | mk cs e s l => mk cs e s l :: subnodesChildren cs
/-- All the nodes below the entries of a children map. -/
def subnodesChildren : List (Char × TrieNode) → List TrieNode
  | [] => []
  | (_, t) :: rest => subnodes t ++ subnodesChildren rest
end

end TrieNode

/-- Two tries hold the same map: along every path a node exists in one exactly
when it exists in the other, and the two nodes store the same data.  The order
of the entries inside an `unordered_map` is not observable and plays no part. -/
def Trie.sameMap (a b : Trie) : Prop :=
  ∀ w, a.root.fieldsAt w = b.root.fieldsAt w

/-! ## Lemmas on the children map -/

namespace TrieNode

theorem find_assign_self (cs : List (Char × TrieNode)) (ch : Char) (n : TrieNode) :
    find (assign cs ch n) ch = some n := by
  induction cs with
  | nil => simp [assign, find]
  | cons hd tl ih =>
    obtain ⟨c, t⟩ := hd
    by_cases h : c = ch
    · simp [assign, find, h]
    · simp [assign, find, h, ih]

theorem find_assign_ne (cs : List (Char × TrieNode)) {ch c : Char} (n : TrieNode)
    (h : c ≠ ch) : find (assign cs ch n) c = find cs c := by
  induction cs with
  | nil => simp [assign, find, Ne.symm h]
  | cons hd tl ih =>
    obtain ⟨k, t⟩ := hd
    by_cases hk : k = ch
    · subst hk
      simp [assign, find, Ne.symm h]
    · by_cases hc : k = c
      · subst hc
        simp [assign, find, hk]
      · simp [assign, find, hk, hc, ih]

theorem countWordsChildren_assign_none (cs : List (Char × TrieNode)) (ch : Char)
    (n : TrieNode) (h : find cs ch = none) :
    countWordsChildren (assign cs ch n) = countWordsChildren cs + countWords n := by
  induction cs with
  | nil => simp [assign, countWordsChildren]
  | cons hd tl ih =>
    obtain ⟨k, t⟩ := hd
    by_cases hk : k = ch
    · simp [find, hk] at h
    · simp only [find, hk, if_false] at h
      simp only [assign, hk, if_false, countWordsChildren, ih h]
      omega

theorem countWordsChildren_assign_some (cs : List (Char × TrieNode)) (ch : Char)
    (n child : TrieNode) (h : find cs ch = some child) :
    countWordsChildren (assign cs ch n) + countWords child
      = countWordsChildren cs + countWords n := by
  induction cs with
  | nil => simp [find] at h
  | cons hd tl ih =>
    obtain ⟨k, t⟩ := hd
    by_cases hk : k = ch
    · simp only [find, hk, if_true, Option.some.injEq] at h
      subst h
      simp only [assign, hk, if_true, countWordsChildren]
      omega
    · simp only [find, hk, if_false] at h
      have := ih h
      simp only [assign, hk, if_false, countWordsChildren]
      omega

/-! ## The fresh node -/

theorem positionFrom_new (w : List Char) : positionFrom new w = (-1, 0) := by
  cases w <;> simp [positionFrom, new, startPos, lineLength, children, find]

theorem countFrom_new (w : List Char) : countFrom new w = 0 := by
  cases w <;> simp [countFrom, new, countWords, countWordsChildren, children, find]

theorem terminalAt_new (w : List Char) : terminalAt new w = false := by
  cases w <;> simp [terminalAt, new, isEndOfWord, children, find]

/-! ## Effect of one insertion on the three walks -/

theorem positionFrom_insertFrom (t : List Char) (sp ll : Int) :
    ∀ (n : TrieNode) (w : List Char),
      positionFrom (insertFrom n t sp ll) w
        = if w = t then (sp, ll) else positionFrom n w := by
  induction t with
  | nil =>
    intro n w
    obtain ⟨cs, e, s, l⟩ := n
    cases w <;> simp [insertFrom, positionFrom, startPos, lineLength, children]
  | cons ch rest ih =>
    intro n w
    obtain ⟨cs, e, s, l⟩ := n
    cases w with
    | nil =>
      cases hf : find cs ch <;>
        simp [insertFrom, hf, positionFrom, startPos, lineLength]
    | cons c ws =>
      by_cases hc : c = ch
      · subst hc
        cases hf : find cs c with
        | none =>
          simp only [insertFrom, hf, positionFrom, children, find_assign_self, ih,
            positionFrom_new]
          by_cases hw : ws = rest <;> simp [hw]
        | some child =>
          simp only [insertFrom, hf, positionFrom, children, find_assign_self, ih]
          by_cases hw : ws = rest <;> simp [hw]
      · cases hf : find cs ch <;>
          simp [insertFrom, hf, positionFrom, children, find_assign_ne _ _ hc, hc]

theorem terminalAt_insertFrom (t : List Char) (sp ll : Int) :
    ∀ (n : TrieNode) (w : List Char),
      terminalAt (insertFrom n t sp ll) w = (decide (w = t) || terminalAt n w) := by
  induction t with
  | nil =>
    intro n w
    obtain ⟨cs, e, s, l⟩ := n
    cases w <;> simp [insertFrom, terminalAt, isEndOfWord, children]
  | cons ch rest ih =>
    intro n w
    obtain ⟨cs, e, s, l⟩ := n
    cases w with
    | nil =>
      cases hf : find cs ch <;> simp [insertFrom, hf, terminalAt, isEndOfWord]
    | cons c ws =>
      by_cases hc : c = ch
      · subst hc
        cases hf : find cs c with
        | none =>
          simp [insertFrom, hf, terminalAt, children, find_assign_self, ih, terminalAt_new]
        | some child =>
          simp [insertFrom, hf, terminalAt, children, find_assign_self, ih]
      · cases hf : find cs ch <;>
          simp [insertFrom, hf, terminalAt, children, find_assign_ne _ _ hc, hc]

theorem countWords_insertFrom (t : List Char) (sp ll : Int) :
    ∀ n : TrieNode,
      countWords (insertFrom n t sp ll)
        = countWords n + (if terminalAt n t then 0 else 1) := by
  induction t with
  | nil =>
    intro n
    obtain ⟨cs, e, s, l⟩ := n
    cases e
    · simp [insertFrom, countWords, terminalAt, isEndOfWord]
      omega
    · simp [insertFrom, countWords, terminalAt, isEndOfWord]
  | cons ch rest ih =>
    intro n
    obtain ⟨cs, e, s, l⟩ := n
    cases hf : find cs ch with
    | none =>
      have h1 := countWordsChildren_assign_none cs ch (insertFrom new rest sp ll) hf
      have h2 := ih new
      have h3 : terminalAt new rest = false := terminalAt_new rest
      have h4 : countWords new = 0 := countFrom_new []
      rw [h3, h4] at h2
      simp only [insertFrom, hf, countWords, terminalAt, children, h1, h2]
      simp
      omega
    | some child =>
      have h1 := countWordsChildren_assign_some cs ch (insertFrom child rest sp ll) child hf
      have h2 := ih child
      simp only [insertFrom, hf, countWords, terminalAt, children]
      omega

theorem countFrom_insertFrom (pfx : List Char) (sp ll : Int) :
    ∀ (n : TrieNode) (t : List Char),
      countFrom (insertFrom n t sp ll) pfx
        = countFrom n pfx
          + (if pfx.isPrefixOf t = true ∧ terminalAt n t = false then 1 else 0) := by
  induction pfx with
  | nil =>
    intro n t
    simp only [countFrom, countWords_insertFrom, List.isPrefixOf]
    cases terminalAt n t <;> simp
  | cons c ps ih =>
    intro n t
    obtain ⟨cs, e, s, l⟩ := n
    cases t with
    | nil => simp [insertFrom, countFrom, children, List.isPrefixOf]
    | cons ch rest =>
      by_cases hc : c = ch
      · subst hc
        cases hf : find cs c with
        | none =>
          simp [insertFrom, hf, countFrom, children, find_assign_self, ih, countFrom_new,
            terminalAt, terminalAt_new, List.isPrefixOf]
        | some child =>
          simp [insertFrom, hf, countFrom, children, find_assign_self, ih, terminalAt,
            List.isPrefixOf]
      · cases hf : find cs ch <;>
          simp [insertFrom, hf, countFrom, children, find_assign_ne _ _ hc, hc,
            List.isPrefixOf]

end TrieNode

/-! ## Tries built by a sequence of insertions -/

namespace Trie

theorem insertAll_append (t : Trie) (xs ys : List (List Char × Int × Int)) :
    insertAll t (xs ++ ys) = insertAll (insertAll t xs) ys := by
  simp [insertAll, List.foldl_append]

theorem insertAll_snoc (t : Trie) (xs : List (List Char × Int × Int))
    (r : List Char × Int × Int) :
    insertAll t (xs ++ [r]) = (insertAll t xs).insert r.1 r.2.1 r.2.2 := by
  simp [insertAll, List.foldl_append]

theorem getPositionAndLength_insert (t : Trie) (word : List Char) (sp ll : Int)
    (w : List Char) :
    (t.insert word sp ll).getPositionAndLength w
      = if w = word then (sp, ll) else t.getPositionAndLength w :=
  TrieNode.positionFrom_insertFrom word sp ll t.root w

theorem isTerminal_insert (t : Trie) (word : List Char) (sp ll : Int) (w : List Char) :
    (t.insert word sp ll).isTerminal w = (decide (w = word) || t.isTerminal w) :=
  TrieNode.terminalAt_insertFrom word sp ll t.root w

theorem countWordsWithPrefix_insert (t : Trie) (word : List Char) (sp ll : Int)
    (pfx : List Char) :
    (t.insert word sp ll).countWordsWithPrefix pfx
      = t.countWordsWithPrefix pfx
        + (if pfx.isPrefixOf word = true ∧ t.isTerminal word = false then 1 else 0) :=
  TrieNode.countFrom_insertFrom pfx sp ll t.root word

theorem getPositionAndLength_new (w : List Char) :
    Trie.new.getPositionAndLength w = (-1, 0) :=
  TrieNode.positionFrom_new w

theorem countWordsWithPrefix_new (w : List Char) : Trie.new.countWordsWithPrefix w = 0 :=
  TrieNode.countFrom_new w

theorem isTerminal_new (w : List Char) : Trie.new.isTerminal w = false :=
  TrieNode.terminalAt_new w

/-- In a trie built from the empty one, the terminal words are the inserted texts. -/
theorem isTerminal_insertAll (recs : List (List Char × Int × Int)) (w : List Char) :
    (insertAll Trie.new recs).isTerminal w = true ↔ w ∈ textsOf recs := by
  induction recs using List.reverseRecOn with
  | nil => simp [insertAll, isTerminal_new, textsOf]
  | append_singleton xs r ih =>
    rw [insertAll_snoc, isTerminal_insert]
    simp only [Bool.or_eq_true, decide_eq_true_eq, ih, textsOf, List.map_append,
      List.map_cons, List.map_nil, List.mem_append, List.mem_singleton]
    tauto

end Trie

theorem bruteForceCount_nil (pfx : List Char) : bruteForceCount [] pfx = 0 := by
  simp [bruteForceCount, textsOf]

theorem bruteForceCount_snoc (xs : List (List Char × Int × Int))
    (r : List Char × Int × Int) (pfx : List Char) :
    bruteForceCount (xs ++ [r]) pfx
      = bruteForceCount xs pfx
        + (if pfx.isPrefixOf r.1 = true ∧ r.1 ∉ textsOf xs then 1 else 0) := by
  have hperm : (textsOf (xs ++ [r])).Perm (r.1 :: textsOf xs) := by
    simp only [textsOf, List.map_append, List.map_cons, List.map_nil]
    exact List.perm_append_comm
  have hlen : bruteForceCount (xs ++ [r]) pfx
      = (((r.1 :: textsOf xs).dedup).filter (fun w => pfx.isPrefixOf w)).length := by
    unfold bruteForceCount
    exact ((hperm.dedup).filter _).length_eq
  rw [hlen]
  unfold bruteForceCount
  by_cases hmem : r.1 ∈ textsOf xs
  · rw [List.dedup_cons_of_mem hmem]
    simp [hmem]
  · rw [List.dedup_cons_of_not_mem hmem]
    by_cases hp : pfx.isPrefixOf r.1 = true
    · simp [hmem, hp, List.filter_cons]
    · simp [hmem, hp, List.filter_cons]

/-- The count answered by a built trie is the brute-force count over the records. -/
theorem countWordsWithPrefix_insertAll (recs : List (List Char × Int × Int))
    (pfx : List Char) :
    (Trie.insertAll Trie.new recs).countWordsWithPrefix pfx = bruteForceCount recs pfx := by
  induction recs using List.reverseRecOn with
  | nil => simp [Trie.insertAll, Trie.countWordsWithPrefix_new, bruteForceCount_nil]
  | append_singleton xs r ih =>
    rw [Trie.insertAll_snoc, Trie.countWordsWithPrefix_insert, ih, bruteForceCount_snoc]
    have hterm := Trie.isTerminal_insertAll xs r.1
    by_cases hmem : r.1 ∈ textsOf xs
    · have : (Trie.insertAll Trie.new xs).isTerminal r.1 = true := hterm.mpr hmem
      simp [hmem, this]
    · have : (Trie.insertAll Trie.new xs).isTerminal r.1 = false := by
        cases h : (Trie.insertAll Trie.new xs).isTerminal r.1
        · rfl
        · exact absurd (hterm.mp h) hmem
      simp [hmem, this]

/-! ## Positions answered by a built trie -/

namespace Trie

/-- Insertions of other texts leave the answer for `q` unchanged. -/
theorem getPositionAndLength_insertAll_of_not_mem (t : Trie)
    (recs : List (List Char × Int × Int)) (q : List Char) (h : q ∉ textsOf recs) :
    (insertAll t recs).getPositionAndLength q = t.getPositionAndLength q := by
  induction recs using List.reverseRecOn with
  | nil => simp [insertAll]
  | append_singleton xs r ih =>
    simp only [textsOf, List.map_append, List.map_cons, List.map_nil, List.mem_append,
      List.mem_singleton, not_or] at h
    rw [insertAll_snoc, getPositionAndLength_insert, if_neg h.2]
    exact ih h.1

/-- The answer for `q` is the metadata of the last record whose text is `q`. -/
theorem getPositionAndLength_insertAll_last (t : Trie)
    (pre post : List (List Char × Int × Int)) (q : List Char) (off len : Int)
    (h : q ∉ textsOf post) :
    (insertAll t (pre ++ (q, off, len) :: post)).getPositionAndLength q = (off, len) := by
  have hsplit : pre ++ (q, off, len) :: post = (pre ++ [(q, off, len)]) ++ post := by simp
  rw [hsplit, insertAll_append, getPositionAndLength_insertAll_of_not_mem _ _ _ h,
    insertAll_snoc, getPositionAndLength_insert]
  simp

/-- With non-negative offsets, an inserted text is answered a non-negative offset. -/
theorem getPositionAndLength_insertAll_nonneg (recs : List (List Char × Int × Int))
    (hoff : ∀ r ∈ recs, 0 ≤ r.2.1) (q : List Char) (h : q ∈ textsOf recs) :
    0 ≤ ((insertAll Trie.new recs).getPositionAndLength q).1 := by
  induction recs using List.reverseRecOn with
  | nil => simp [textsOf] at h
  | append_singleton xs r ih =>
    rw [insertAll_snoc, getPositionAndLength_insert]
    by_cases hq : q = r.1
    · rw [if_pos hq]
      exact hoff r (by simp)
    · rw [if_neg hq]
      have hmem : q ∈ textsOf xs := by
        simp only [textsOf, List.map_append, List.map_cons, List.map_nil, List.mem_append,
          List.mem_singleton] at h
        rcases h with h | h
        · exact h
        · exact absurd h hq
      exact ih (fun r hr => hoff r (by simp [hr])) hmem

end Trie

/-! ## Claims on the trie -/

/-- C1: for every list of records inserted in order into the empty trie and every
string `pfx`, `countWordsWithPrefix pfx` is the number of distinct texts of the list
that start with `pfx` (the brute-force scan, duplicates counted once). -/
theorem count_eq_bruteForce (recs : List (List Char × Int × Int)) (pfx : List Char) :
    (Trie.insertAll Trie.new recs).countWordsWithPrefix pfx
      = ((recs.map (fun r => r.1)).dedup.filter (fun w => pfx.isPrefixOf w)).length :=
  countWordsWithPrefix_insertAll recs pfx

/-- C2: right after `insert t off len` the lookup of `t` answers `(off, len)`, and
after a further `insert t off2 len2` it answers `(off2, len2)`; this holds from
every trie, in particular from every trie reachable by insertions, and for the
empty text. -/
theorem lookup_after_insert (tr : Trie) (t : List Char) (off len off2 len2 : Int) :
    (tr.insert t off len).getPositionAndLength t = (off, len)
      ∧ ((tr.insert t off len).insert t off2 len2).getPositionAndLength t = (off2, len2) := by
  simp [Trie.getPositionAndLength_insert]

/-- C3: in a trie built from the empty one by records with `byteOffset ≥ 0`, the
offset answered for `q` differs from `-1` exactly when `q` is one of the inserted
texts, and for every other `q` the answer is exactly `(-1, 0)`. -/
theorem sentinel_iff_not_inserted (recs : List (List Char × Int × Int))
    (hoff : ∀ r ∈ recs, 0 ≤ r.2.1) (q : List Char) :
    (((Trie.insertAll Trie.new recs).getPositionAndLength q).1 ≠ -1 ↔ q ∈ textsOf recs)
      ∧ (q ∉ textsOf recs → (Trie.insertAll Trie.new recs).getPositionAndLength q = (-1, 0)) := by
  have hnot : q ∉ textsOf recs →
      (Trie.insertAll Trie.new recs).getPositionAndLength q = (-1, 0) := by
    intro h
    rw [Trie.getPositionAndLength_insertAll_of_not_mem _ _ _ h,
      Trie.getPositionAndLength_new]
  refine ⟨⟨?_, ?_⟩, hnot⟩
  · intro h
    by_contra hq
    exact h (by rw [hnot hq])
  · intro h
    have := Trie.getPositionAndLength_insertAll_nonneg recs hoff q h
    omega

/-- Witness for C3 on the records `("cat", 0, 8)`, `("car", 9, 7)` and the query `"ca"`. -/
theorem sentinel_iff_not_inserted_witness :
    (∀ r ∈ [("cat".toList, (0 : Int), (8 : Int)), ("car".toList, 9, 7)], 0 ≤ r.2.1)
      ∧ ((((Trie.insertAll Trie.new [("cat".toList, 0, 8), ("car".toList, 9, 7)]).getPositionAndLength
            "ca".toList).1 ≠ -1
          ↔ "ca".toList ∈ textsOf [("cat".toList, 0, 8), ("car".toList, 9, 7)])
        ∧ ("ca".toList ∉ textsOf [("cat".toList, 0, 8), ("car".toList, 9, 7)] →
            (Trie.insertAll Trie.new [("cat".toList, 0, 8), ("car".toList, 9, 7)]).getPositionAndLength
              "ca".toList = (-1, 0))) :=
  ⟨by decide,
    sentinel_iff_not_inserted [("cat".toList, 0, 8), ("car".toList, 9, 7)] (by decide)
      "ca".toList⟩

/-! ## The bracket test of the extraction loop -/

theorem findChar_append_of_not_mem (pre post : List Char) (c : Char) (h : c ∉ pre) :
    findChar (pre ++ c :: post) c = some pre.length := by
  induction pre with
  | nil => simp [findChar]
  | cons x xs ih =>
    simp only [List.mem_cons, not_or] at h
    have hx : ¬ x = c := fun e => h.1 e.symm
    simp [findChar, hx, ih h.2]

theorem findChar_eq_some (line : List Char) (c : Char) :
    ∀ i, findChar line c = some i →
      ∃ pre post, line = pre ++ c :: post ∧ c ∉ pre ∧ pre.length = i := by
  induction line with
  | nil => intro i h; simp [findChar] at h
  | cons x xs ih =>
    intro i h
    by_cases hx : x = c
    · simp only [findChar, hx, if_true, Option.some.injEq] at h
      exact ⟨[], xs, by simp [hx], by simp, by simpa using h⟩
    · simp only [findChar, hx, if_false, Option.map_eq_some'] at h
      obtain ⟨j, hj, hji⟩ := h
      obtain ⟨pre, post, hl, hn, hlen⟩ := ih j hj
      refine ⟨x :: pre, post, by simp [hl], ?_, by simp [hlen, hji]⟩
      simp only [List.mem_cons, not_or]
      exact ⟨fun e => hx e.symm, hn⟩

/-- The extractor yields `w` exactly when the line reads `pre ++ "[" ++ w ++ "]" ++ post`
with `w` non-empty, no `[` in `pre`, and no `]` in `pre` or in `w`. -/
theorem extractToken_eq_some_iff (line w : List Char) :
    extractToken line = some w ↔
      ∃ pre post, line = pre ++ '[' :: (w ++ ']' :: post)
        ∧ '[' ∉ pre ∧ ']' ∉ pre ∧ ']' ∉ w ∧ w ≠ [] := by
  constructor
  · intro h
    unfold extractToken at h
    cases h1 : findChar line '[' with
    | none => simp [h1] at h
    | some start =>
      cases h2 : findChar line ']' with
      | none => simp [h1, h2] at h
      | some stop =>
        simp only [h1, h2] at h
        by_cases hgt : stop > start + 1
        · simp only [hgt, if_true, Option.some.injEq] at h
          obtain ⟨pre, rest, hl, hn, hlen⟩ := findChar_eq_some line '[' start h1
          obtain ⟨pre2, post, hl2, hn2, hlen2⟩ := findChar_eq_some line ']' stop h2
          have heq : pre ++ '[' :: rest = pre2 ++ ']' :: post := hl ▸ hl2
          rcases List.append_eq_append_iff.mp heq with ⟨a, ha, hb⟩ | ⟨a, ha, hb⟩
          · -- pre2 = pre ++ a
            cases a with
            | nil =>
              simp at ha
              subst ha
              omega
            | cons x mid =>
              simp only [List.cons_append, List.cons.injEq] at hb
              obtain ⟨hx, hrest⟩ := hb
              subst hx
              have hw : w = mid := by
                rw [← h, hl, hrest, ← hlen, ← hlen2, ha]
                simp [substr]
              subst hw
              refine ⟨pre, post, ?_, hn, ?_, ?_, ?_⟩
              · rw [hl, hrest]
              · intro hmem
                exact hn2 (by rw [ha]; simp [hmem])
              · intro hmem
                exact hn2 (by rw [ha]; simp [hmem])
              · intro he
                subst he
                rw [ha] at hlen2
                simp at hlen2
                omega
          · -- pre = pre2 ++ a
            have : pre2.length ≤ pre.length := by rw [ha]; simp
            omega
        · simp [hgt] at h
  · rintro ⟨pre, post, hl, hn1, hn2, hn3, hne⟩
    have h1 : findChar line '[' = some pre.length := by
      rw [hl]; exact findChar_append_of_not_mem pre _ '[' hn1
    have h2 : findChar line ']' = some (pre.length + 1 + w.length) := by
      have hsplit : line = (pre ++ '[' :: w) ++ ']' :: post := by simp [hl]
      have hnot : ']' ∉ pre ++ '[' :: w := by
        simp only [List.mem_append, List.mem_cons, not_or]
        exact ⟨hn2, by decide, hn3⟩
      rw [hsplit, findChar_append_of_not_mem _ _ ']' hnot]
      simp only [List.length_append, List.length_cons, Option.some.injEq]
      omega
    have hpos : 0 < w.length := List.length_pos.mpr hne
    unfold extractToken
    simp only [h1, h2]
    have hgt : pre.length + 1 + w.length > pre.length + 1 := by omega
    simp only [hgt, if_true, Option.some.injEq]
    have hlen : pre.length + 1 + w.length - pre.length - 1 = w.length := by omega
    rw [hlen, hl]
    simp [substr]

theorem findChar_append_left (pre l : List Char) (c : Char) (h : c ∉ pre) :
    findChar (pre ++ l) c = (findChar l c).map (· + pre.length) := by
  induction pre with
  | nil => simp
  | cons x xs ih =>
    simp only [List.mem_cons, not_or] at h
    have hx : ¬ x = c := fun e => h.1 e.symm
    have ih2 := ih h.2
    show findChar (x :: (xs ++ l)) c = _
    simp only [findChar, hx, if_false, List.length_cons]
    rw [ih2]
    cases findChar l c with
    | none => rfl
    | some k => simp only [Option.map_some', Option.some.injEq]; omega

/-- When no `]` stands before the first `[`, the extractor and the specification's
wording pick the same brackets. -/
theorem extractToken_eq_spec_of_no_early_close (line : List Char)
    (h : ∀ s, findChar line '[' = some s → ']' ∉ line.take s) :
    extractToken line = specExtractToken line := by
  unfold extractToken specExtractToken
  cases h1 : findChar line '[' with
  | none => simp
  | some start =>
    obtain ⟨pre, rest, hl, _, hlen⟩ := findChar_eq_some line '[' start h1
    have hpre : ']' ∉ pre := by
      have := h start h1
      rw [hl, ← hlen] at this
      simpa using this
    have hcode : findChar line ']' = (findChar rest ']').map (· + (start + 1)) := by
      have hne : ¬ '[' = ']' := by decide
      rw [hl, findChar_append_left pre _ ']' hpre]
      simp only [findChar, hne, if_false, hlen]
      cases findChar rest ']' with
      | none => rfl
      | some k => simp only [Option.map_some', Option.some.injEq]; omega
    have hspec : findCharFrom line ']' (start + 1) = (findChar rest ']').map (· + (start + 1)) := by
      unfold findCharFrom
      rw [hl, ← hlen]
      simp
    simp only [hcode, hspec]
    cases findChar rest ']' <;> simp

/-- C4 as stated fails: on the line `]a[cat]` the first `]` after the first `[`
encloses `cat`, yet the extractor emits no token. -/
theorem extractToken_ne_spec :
    specExtractToken "]a[cat]".toList = some "cat".toList
      ∧ extractToken "]a[cat]".toList = none := by
  decide

/-- C4 (amended): the extractor takes the first `[` and the first `]` of the whole
line.  On every line in which no `]` stands before the first `[` it emits exactly
what the specification says (the text between the first `[` and the first `]` after
it, when both exist and the text is non-empty; nothing otherwise); a line in which
a `]` stands before the first `[` contributes no token.  In both cases the token is
`w` exactly when the line is `pre ++ "[" ++ w ++ "]" ++ post` with no bracket of
either kind in `pre`, no `]` in `w` and `w` non-empty. -/
theorem extractToken_first_brackets (line : List Char) :
    ((∀ s, findChar line '[' = some s → ']' ∉ line.take s) →
        extractToken line = specExtractToken line)
      ∧ ((∃ s, findChar line '[' = some s ∧ ']' ∈ line.take s) → extractToken line = none)
      ∧ (∀ w, extractToken line = some w ↔
          ∃ pre post, line = pre ++ '[' :: (w ++ ']' :: post)
            ∧ '[' ∉ pre ∧ ']' ∉ pre ∧ ']' ∉ w ∧ w ≠ []) := by
  refine ⟨extractToken_eq_spec_of_no_early_close line, ?_,
    fun w => extractToken_eq_some_iff line w⟩
  rintro ⟨s, hs, hmem⟩
  cases he : extractToken line with
  | none => rfl
  | some w =>
    exfalso
    obtain ⟨pre, post, hl, hn1, hn2, _, _⟩ := (extractToken_eq_some_iff line w).mp he
    have hs2 : findChar line '[' = some pre.length := by
      rw [hl]; exact findChar_append_of_not_mem pre _ '[' hn1
    rw [hs] at hs2
    have hlen : s = pre.length := Option.some.inj hs2
    rw [hl, hlen] at hmem
    simp at hmem
    exact hn2 hmem

/-- Witness for C4 (amended) on the line `a[cat]bc`, where no `]` stands before the
first `[`, and on the line `]a[cat]`, where one does. -/
theorem extractToken_first_brackets_witness :
    (∀ s, findChar "a[cat]bc".toList '[' = some s → ']' ∉ "a[cat]bc".toList.take s)
      ∧ extractToken "a[cat]bc".toList = specExtractToken "a[cat]bc".toList
      ∧ (∃ s, findChar "]a[cat]".toList '[' = some s ∧ ']' ∈ "]a[cat]".toList.take s)
      ∧ extractToken "]a[cat]".toList = none := by
  have h1 : ∀ s, findChar "a[cat]bc".toList '[' = some s → ']' ∉ "a[cat]bc".toList.take s := by
    intro s hs
    have h : findChar "a[cat]bc".toList '[' = some 1 := by decide
    rw [h] at hs
    cases hs
    decide
  have h2 : ∃ s, findChar "]a[cat]".toList '[' = some s ∧ ']' ∈ "]a[cat]".toList.take s :=
    ⟨2, by decide, by decide⟩
  exact ⟨h1, (extractToken_first_brackets "a[cat]bc".toList).1 h1, h2,
    (extractToken_first_brackets "]a[cat]".toList).2.1 h2⟩

/-! ## The extraction loop -/

theorem toInt32_of_range (n : Int) (h0 : -(2 ^ 31) ≤ n) (h1 : n < 2 ^ 31) : toInt32 n = n := by
  unfold toInt32
  rw [Int.emod_eq_of_lt (by omega) (by omega)]
  omega

theorem buildTrie_snoc (lines : List (List Char)) (l : List Char) :
    buildTrie (lines ++ [l]) = processLine (buildTrie lines) l := by
  simp [buildTrie, List.foldl_append]

/-- The trie of the loop is the one obtained by replaying the recorded calls. -/
theorem buildTrie_trie (lines : List (List Char)) :
    (buildTrie lines).trie = Trie.insertAll Trie.new (buildTrie lines).calls := by
  induction lines using List.reverseRecOn with
  | nil => simp [buildTrie, Trie.insertAll]
  | append_singleton xs l ih =>
    rw [buildTrie_snoc]
    unfold processLine
    cases extractToken l with
    | none => simpa using ih
    | some w => simp [Trie.insertAll_snoc, ← ih]

theorem lineOffset_nonneg (lines : List (List Char)) (i : Nat) : 0 ≤ lineOffset lines i := by
  unfold lineOffset
  apply List.sum_nonneg
  intro x hx
  simp only [List.mem_map] at hx
  obtain ⟨l, _, rfl⟩ := hx
  omega

theorem lineOffset_snoc_length (xs : List (List Char)) (l : List Char) :
    lineOffset (xs ++ [l]) (xs ++ [l]).length
      = lineOffset xs xs.length + (l.length : Int) + 1 := by
  simp [lineOffset, Int.add_assoc]

theorem lineOffset_append_of_le (xs ys : List (List Char)) (i : Nat) (h : i ≤ xs.length) :
    lineOffset (xs ++ ys) i = lineOffset xs i := by
  unfold lineOffset
  rw [List.take_append_of_le_length h]

theorem expectedRecord_append_of_lt (xs ys : List (List Char)) (i : Nat) (h : i < xs.length) :
    expectedRecord (xs ++ ys) i = expectedRecord xs i := by
  unfold expectedRecord
  rw [lineOffset_append_of_le xs ys i (Nat.le_of_lt h)]
  simp [List.getD_eq_getElem?_getD, List.getElem?_append_left h]

theorem expectedRecords_snoc (xs : List (List Char)) (l : List Char) :
    expectedRecords (xs ++ [l])
      = expectedRecords xs
        ++ ((extractToken l).map
            (fun w => (w, lineOffset xs xs.length, (l.length : Int)))).toList := by
  unfold expectedRecords
  rw [List.length_append, List.length_singleton, List.range_succ, List.filterMap_append]
  congr 1
  · apply List.filterMap_congr
    intro i hi
    exact expectedRecord_append_of_lt xs [l] i (List.mem_range.mp hi)
  · simp only [List.filterMap_cons, List.filterMap_nil]
    have : expectedRecord (xs ++ [l]) xs.length
        = (extractToken l).map (fun w => (w, lineOffset xs xs.length, (l.length : Int))) := by
      unfold expectedRecord
      rw [lineOffset_append_of_le xs [l] xs.length (Nat.le_refl _)]
      simp [List.getD_eq_getElem?_getD]
    rw [this]
    cases extractToken l <;> simp

/-- While the file size fits in an `int`, the accumulator is the true offset and the
recorded calls are the expected records. -/
theorem buildTrie_calls (lines : List (List Char))
    (h : lineOffset lines lines.length < 2 ^ 31) :
    (buildTrie lines).calls = expectedRecords lines
      ∧ (buildTrie lines).startPos = lineOffset lines lines.length := by
  induction lines using List.reverseRecOn with
  | nil => simp [buildTrie, expectedRecords, lineOffset]
  | append_singleton xs l ih =>
    have hsum := lineOffset_snoc_length xs l
    have hnn := lineOffset_nonneg xs xs.length
    have hlen : (0 : Int) ≤ (l.length : Int) := Int.ofNat_nonneg _
    obtain ⟨ihc, ihs⟩ := ih (by omega)
    rw [buildTrie_snoc, expectedRecords_snoc, hsum]
    have hnext : toInt32 (lineOffset xs xs.length + (l.length : Int) + 1)
        = lineOffset xs xs.length + (l.length : Int) + 1 :=
      toInt32_of_range _ (by omega) (by omega)
    have hl : toInt32 (l.length : Int) = (l.length : Int) :=
      toInt32_of_range _ (by omega) (by omega)
    unfold processLine
    cases extractToken l with
    | none => simp [ihc, ihs, hnext]
    | some w => simp [ihc, ihs, hnext, hl]

/-- C5: for every sequence of lines whose total size (every line counted with its
terminator) fits in an `int`, the calls made by the extraction loop are, in line
order, one record per line that yields a token, with `byteOffset` the sum over the
earlier lines of `length + 1` and `lineLength` the length of the line; the running
offset starts at `0` and ends at the sum over all lines of `length + 1`, so it
advances by `length + 1` on every line, token or not. -/
theorem extraction_offsets (lines : List (List Char))
    (h : ((lines.map (fun l => (l.length : Int) + 1)).sum) < 2 ^ 31) :
    (buildTrie lines).calls
        = (List.range lines.length).filterMap (fun i =>
            (extractToken (lines.getD i [])).map (fun w =>
              (w, ((lines.take i).map (fun l => (l.length : Int) + 1)).sum,
                ((lines.getD i []).length : Int))))
      ∧ (buildTrie []).startPos = 0
      ∧ (∀ pre l, (buildTrie (pre ++ [l])).startPos
            = toInt32 ((buildTrie pre).startPos + (l.length : Int) + 1))
      ∧ (buildTrie lines).startPos = (lines.map (fun l => (l.length : Int) + 1)).sum := by
  have hh : lineOffset lines lines.length < 2 ^ 31 := by simpa [lineOffset] using h
  obtain ⟨hc, hs⟩ := buildTrie_calls lines hh
  refine ⟨hc, rfl, ?_, by simpa [lineOffset] using hs⟩
  intro pre l
  rw [buildTrie_snoc]
  unfold processLine
  cases extractToken l <;> rfl

/-- Witness for C5 on the file with lines `a[cat]bc`, `no token here`, `x[car]y`. -/
theorem extraction_offsets_witness :
    (((["a[cat]bc".toList, "no token here".toList, "x[car]y".toList].map
          (fun l => (l.length : Int) + 1)).sum) < 2 ^ 31)
      ∧ (buildTrie ["a[cat]bc".toList, "no token here".toList, "x[car]y".toList]).calls
          = [("cat".toList, 0, 8), ("car".toList, 23, 7)]
      ∧ (buildTrie ["a[cat]bc".toList, "no token here".toList, "x[car]y".toList]).startPos
          = 31 := by
  have h := extraction_offsets ["a[cat]bc".toList, "no token here".toList, "x[car]y".toList]
    (by decide)
  refine ⟨by decide, ?_, ?_⟩
  · rw [h.1]; decide
  · rw [h.2.2.2]; decide

/-! ## The query loop -/

theorem queryStep_of_count_eq_zero (t : Trie) (q : List Char)
    (h : t.countWordsWithPrefix q = 0) : queryStep t q = [OutLine.isNotPrefix q] := by
  simp [queryStep, h]

theorem queryStep_of_count_pos (t : Trie) (q : List Char)
    (h : t.countWordsWithPrefix q ≠ 0) :
    queryStep t q
      = OutLine.isPrefixOf q (t.countWordsWithPrefix q)
        :: (if (t.getPositionAndLength q).1 ≠ -1
            then [OutLine.isAt q (t.getPositionAndLength q).1 (t.getPositionAndLength q).2]
            else []) := by
  have hpos : t.countWordsWithPrefix q > 0 := Nat.pos_of_ne_zero h
  unfold queryStep
  by_cases hp : (t.getPositionAndLength q).1 = -1
  · simp [hpos, hp]
  · simp [hpos, hp]

theorem bruteForceCount_pos_of_mem (recs : List (List Char × Int × Int)) (t : List Char)
    (h : t ∈ textsOf recs) : 1 ≤ bruteForceCount recs t := by
  unfold bruteForceCount
  apply List.length_pos_of_mem (a := t)
  rw [List.mem_filter]
  exact ⟨List.mem_dedup.mpr h, List.isPrefixOf_iff_prefix.mpr (List.prefix_refl t)⟩

theorem mem_textsOf_middle (pre post : List (List Char × Int × Int)) (q : List Char)
    (off len : Int) : q ∈ textsOf (pre ++ (q, off, len) :: post) := by
  simp [textsOf]

/-- C6: for every trie and query `q`, the query step prints the single line "not
prefix" exactly when `countWordsWithPrefix q = 0`; otherwise it prints the count,
followed by the pair `getPositionAndLength q` exactly when its offset is not `-1`.
Consequently, on a trie built from records with `byteOffset ≥ 0`, a `q` that was
inserted gets a count of at least one together with the offset and length of its
last insertion, and no position line is printed for a `q` that was not inserted. -/
theorem query_report :
    (∀ (t : Trie) (q : List Char),
        (queryStep t q = [OutLine.isNotPrefix q] ↔ t.countWordsWithPrefix q = 0)
          ∧ (t.countWordsWithPrefix q ≠ 0 →
              queryStep t q
                = OutLine.isPrefixOf q (t.countWordsWithPrefix q)
                  :: (if (t.getPositionAndLength q).1 ≠ -1
                      then [OutLine.isAt q (t.getPositionAndLength q).1
                        (t.getPositionAndLength q).2]
                      else [])))
      ∧ (∀ recs : List (List Char × Int × Int), (∀ r ∈ recs, 0 ≤ r.2.1) →
          ∀ q : List Char,
            (∀ pre post off len, recs = pre ++ (q, off, len) :: post → q ∉ textsOf post →
                1 ≤ (Trie.insertAll Trie.new recs).countWordsWithPrefix q
                  ∧ queryStep (Trie.insertAll Trie.new recs) q
                    = [OutLine.isPrefixOf q
                          ((Trie.insertAll Trie.new recs).countWordsWithPrefix q),
                        OutLine.isAt q off len])
              ∧ (q ∉ textsOf recs →
                  ∀ w s l, OutLine.isAt w s l ∉ queryStep (Trie.insertAll Trie.new recs) q)) := by
  refine ⟨fun t q => ⟨⟨?_, queryStep_of_count_eq_zero t q⟩, queryStep_of_count_pos t q⟩, ?_⟩
  · intro h
    by_contra hne
    rw [queryStep_of_count_pos t q hne] at h
    simp at h
  · intro recs hoff q
    constructor
    · intro pre post off len hrec hq
      subst hrec
      have hmem := mem_textsOf_middle pre post q off len
      have hcount : 1 ≤ (Trie.insertAll Trie.new (pre ++ (q, off, len) :: post)).countWordsWithPrefix q := by
        rw [countWordsWithPrefix_insertAll]
        exact bruteForceCount_pos_of_mem _ q hmem
      have hposn := Trie.getPositionAndLength_insertAll_last Trie.new pre post q off len hq
      have hnn := Trie.getPositionAndLength_insertAll_nonneg _ hoff q hmem
      refine ⟨hcount, ?_⟩
      rw [queryStep_of_count_pos _ q (by omega)]
      rw [hposn] at hnn ⊢
      have hne : off ≠ -1 := by
        simp only at hnn
        omega
      simp [hne]
    · intro hq w s l
      have hposn : (Trie.insertAll Trie.new recs).getPositionAndLength q = (-1, 0) := by
        rw [Trie.getPositionAndLength_insertAll_of_not_mem _ _ _ hq,
          Trie.getPositionAndLength_new]
      by_cases hc : (Trie.insertAll Trie.new recs).countWordsWithPrefix q = 0
      · rw [queryStep_of_count_eq_zero _ q hc]
        simp
      · rw [queryStep_of_count_pos _ q hc, hposn]
        simp

/-- Witness for C6 on the records `("cat", 0, 8)`, `("car", 9, 7)`, `("cat", 30, 5)`:
the query `cat` is answered with its last position, the query `ca` with none. -/
theorem query_report_witness :
    (∀ r ∈ [("cat".toList, (0 : Int), (8 : Int)), ("car".toList, 9, 7), ("cat".toList, 30, 5)],
        0 ≤ r.2.1)
      ∧ queryStep (Trie.insertAll Trie.new
            [("cat".toList, 0, 8), ("car".toList, 9, 7), ("cat".toList, 30, 5)]) "cat".toList
          = [OutLine.isPrefixOf "cat".toList 1, OutLine.isAt "cat".toList 30 5]
      ∧ (∀ w s l, OutLine.isAt w s l ∉ queryStep (Trie.insertAll Trie.new
            [("cat".toList, 0, 8), ("car".toList, 9, 7), ("cat".toList, 30, 5)]) "ca".toList) := by
  have hoff : ∀ r ∈ [("cat".toList, (0 : Int), (8 : Int)), ("car".toList, 9, 7),
      ("cat".toList, 30, 5)], 0 ≤ r.2.1 := by decide
  have h := query_report.2 _ hoff
  refine ⟨hoff, ?_, ?_⟩
  · have h1 := ((h "cat".toList).1 [("cat".toList, 0, 8), ("car".toList, 9, 7)] [] 30 5 rfl
      (by decide)).2
    rw [h1]
    decide
  · exact (h "ca".toList).2 (by decide)

/-- C7: on the file with lines `a[cat]bc` and `x[car]y` the extractor emits
`("cat", 0, 8)` and `("car", 9, 7)`; on the resulting trie the query `ca` prints
count 2 and no position, `cat` prints count 1 and position `(0, 8)`, and `dog`
prints "not prefix" (count 0). -/
theorem scenario_cat_car :
    (buildTrie ["a[cat]bc".toList, "x[car]y".toList]).calls
        = [("cat".toList, 0, 8), ("car".toList, 9, 7)]
      ∧ (buildTrie ["a[cat]bc".toList, "x[car]y".toList]).trie.countWordsWithPrefix
          "ca".toList = 2
      ∧ queryStep (buildTrie ["a[cat]bc".toList, "x[car]y".toList]).trie "ca".toList
          = [OutLine.isPrefixOf "ca".toList 2]
      ∧ (buildTrie ["a[cat]bc".toList, "x[car]y".toList]).trie.countWordsWithPrefix
          "cat".toList = 1
      ∧ (buildTrie ["a[cat]bc".toList, "x[car]y".toList]).trie.getPositionAndLength
          "cat".toList = (0, 8)
      ∧ queryStep (buildTrie ["a[cat]bc".toList, "x[car]y".toList]).trie "cat".toList
          = [OutLine.isPrefixOf "cat".toList 1, OutLine.isAt "cat".toList 0 8]
      ∧ (buildTrie ["a[cat]bc".toList, "x[car]y".toList]).trie.countWordsWithPrefix
          "dog".toList = 0
      ∧ queryStep (buildTrie ["a[cat]bc".toList, "x[car]y".toList]).trie "dog".toList
          = [OutLine.isNotPrefix "dog".toList] := by
  decide

/-! ## Counts under repeated insertion -/

/-- C8: inserting again a text that is already in a reachable trie changes no count,
whatever the new metadata, while the lookup of that text answers the new metadata. -/
theorem duplicate_insert_keeps_counts (recs : List (List Char × Int × Int))
    (t : List Char) (off2 len2 : Int) (h : t ∈ textsOf recs) :
    (∀ pfx, ((Trie.insertAll Trie.new recs).insert t off2 len2).countWordsWithPrefix pfx
        = (Trie.insertAll Trie.new recs).countWordsWithPrefix pfx)
      ∧ ((Trie.insertAll Trie.new recs).insert t off2 len2).getPositionAndLength t
          = (off2, len2) := by
  have hterm : (Trie.insertAll Trie.new recs).isTerminal t = true :=
    (Trie.isTerminal_insertAll recs t).mpr h
  constructor
  · intro pfx
    rw [Trie.countWordsWithPrefix_insert, hterm]
    simp
  · simp [Trie.getPositionAndLength_insert]

/-- Witness for C8: `cat` inserted at `(0, 8)` and again at `(9, 7)`; the count for
the prefix `c` stays `1` and the lookup answers `(9, 7)`. -/
theorem duplicate_insert_keeps_counts_witness :
    "cat".toList ∈ textsOf [("cat".toList, 0, 8)]
      ∧ ((Trie.insertAll Trie.new [("cat".toList, 0, 8)]).insert "cat".toList 9 7).countWordsWithPrefix
          "c".toList = 1
      ∧ ((Trie.insertAll Trie.new [("cat".toList, 0, 8)]).insert "cat".toList 9 7).getPositionAndLength
          "cat".toList = (9, 7) := by
  have h := duplicate_insert_keeps_counts [("cat".toList, 0, 8)] "cat".toList 9 7 (by decide)
  refine ⟨by decide, ?_, h.2⟩
  rw [h.1]
  decide

/-- C9: after any sequence of insertions into the empty trie, the count for the
empty string is the number of distinct texts inserted. -/
theorem count_empty_eq_distinct (recs : List (List Char × Int × Int)) :
    (Trie.insertAll Trie.new recs).countWordsWithPrefix []
      = ((recs.map (fun r => r.1)).dedup).length := by
  rw [countWordsWithPrefix_insertAll]
  simp [bruteForceCount, textsOf]

/-- C10: in a trie reached by insertions, every text inserted at some point has a
count of at least one. -/
theorem count_inserted_pos (recs : List (List Char × Int × Int)) (t : List Char)
    (h : t ∈ recs.map (fun r => r.1)) :
    1 ≤ (Trie.insertAll Trie.new recs).countWordsWithPrefix t := by
  rw [countWordsWithPrefix_insertAll]
  exact bruteForceCount_pos_of_mem recs t h

/-- Witness for C10 on the records `("cat", 0, 8)`, `("car", 9, 7)` and the text `car`. -/
theorem count_inserted_pos_witness :
    "car".toList ∈ [("cat".toList, (0 : Int), (8 : Int)), ("car".toList, 9, 7)].map (fun r => r.1)
      ∧ 1 ≤ (Trie.insertAll Trie.new
          [("cat".toList, 0, 8), ("car".toList, 9, 7)]).countWordsWithPrefix "car".toList :=
  ⟨by decide, count_inserted_pos [("cat".toList, 0, 8), ("car".toList, 9, 7)] "car".toList
    (by decide)⟩

/-! ## Paths, counts and lookups in an arbitrary trie -/

namespace TrieNode

theorem countWords_le_of_find (cs : List (Char × TrieNode)) (ch : Char) (child : TrieNode)
    (h : find cs ch = some child) : countWords child ≤ countWordsChildren cs := by
  induction cs with
  | nil => simp [find] at h
  | cons hd tl ih =>
    obtain ⟨k, t⟩ := hd
    by_cases hk : k = ch
    · simp only [find, hk, if_true, Option.some.injEq] at h
      subst h
      simp only [countWordsChildren]
      omega
    · simp only [find, hk, if_false] at h
      have := ih h
      simp only [countWordsChildren]
      omega

theorem countWordsChildren_le (n : TrieNode) : countWordsChildren n.children ≤ countWords n := by
  obtain ⟨cs, e, s, l⟩ := n
  simp only [children, countWords]
  omega

theorem countFrom_le_countWords (w : List Char) :
    ∀ n : TrieNode, countFrom n w ≤ countWords n := by
  induction w with
  | nil => intro n; simp [countFrom]
  | cons c ws ih =>
    intro n
    cases hf : find n.children c with
    | none => simp [countFrom, hf]
    | some child =>
      simp only [countFrom, hf]
      exact Nat.le_trans (ih child)
        (Nat.le_trans (countWords_le_of_find _ _ _ hf) (countWordsChildren_le n))

theorem countFrom_append_le (p s : List Char) :
    ∀ n : TrieNode, countFrom n (p ++ s) ≤ countFrom n p := by
  induction p with
  | nil => intro n; simpa [countFrom] using countFrom_le_countWords s n
  | cons c ps ih =>
    intro n
    cases hf : find n.children c with
    | none => simp [countFrom, hf]
    | some child => simpa [countFrom, hf] using ih child

theorem countFrom_of_walk (w : List Char) :
    ∀ n m : TrieNode, walk n w = some m → countFrom n w = countWords m := by
  induction w with
  | nil => intro n m h; simp only [walk, Option.some.injEq] at h; subst h; rfl
  | cons c ws ih =>
    intro n m h
    cases hf : find n.children c with
    | none => simp [walk, hf] at h
    | some child =>
      simp only [walk, hf] at h
      simpa [countFrom, hf] using ih child m h

theorem positionFrom_of_walk (w : List Char) :
    ∀ n m : TrieNode, walk n w = some m → positionFrom n w = (m.startPos, m.lineLength) := by
  induction w with
  | nil => intro n m h; simp only [walk, Option.some.injEq] at h; subst h; rfl
  | cons c ws ih =>
    intro n m h
    cases hf : find n.children c with
    | none => simp [walk, hf] at h
    | some child =>
      simp only [walk, hf] at h
      simpa [positionFrom, hf] using ih child m h

theorem terminalAt_of_walk (w : List Char) :
    ∀ n m : TrieNode, walk n w = some m → terminalAt n w = m.isEndOfWord := by
  induction w with
  | nil => intro n m h; simp only [walk, Option.some.injEq] at h; subst h; rfl
  | cons c ws ih =>
    intro n m h
    cases hf : find n.children c with
    | none => simp [walk, hf] at h
    | some child =>
      simp only [walk, hf] at h
      simpa [terminalAt, hf] using ih child m h

theorem countFrom_of_walk_none (w : List Char) :
    ∀ n : TrieNode, walk n w = none → countFrom n w = 0 := by
  induction w with
  | nil => intro n h; simp [walk] at h
  | cons c ws ih =>
    intro n h
    cases hf : find n.children c with
    | none => simp [countFrom, hf]
    | some child =>
      simp only [walk, hf] at h
      simpa [countFrom, hf] using ih child h

theorem positionFrom_of_walk_none (w : List Char) :
    ∀ n : TrieNode, walk n w = none → positionFrom n w = (-1, 0) := by
  induction w with
  | nil => intro n h; simp [walk] at h
  | cons c ws ih =>
    intro n h
    cases hf : find n.children c with
    | none => simp [positionFrom, hf]
    | some child =>
      simp only [walk, hf] at h
      simpa [positionFrom, hf] using ih child h

end TrieNode

/-- C11: in every trie, when `p1` is a prefix of `p2` the count for `p1` is at least
the count for `p2`. -/
theorem count_prefix_monotone (t : Trie) (p1 p2 : List Char) (h : p1 <+: p2) :
    t.countWordsWithPrefix p2 ≤ t.countWordsWithPrefix p1 := by
  obtain ⟨s, rfl⟩ := h
  exact TrieNode.countFrom_append_le p1 s t.root

/-- Witness for C11 on the trie holding `cat` and `car`, with `c` a prefix of `cat`. -/
theorem count_prefix_monotone_witness :
    "c".toList <+: "cat".toList
      ∧ (Trie.insertAll Trie.new [("cat".toList, 0, 8), ("car".toList, 9, 7)]).countWordsWithPrefix
          "cat".toList
        ≤ (Trie.insertAll Trie.new [("cat".toList, 0, 8), ("car".toList, 9, 7)]).countWordsWithPrefix
          "c".toList :=
  ⟨by decide, count_prefix_monotone _ _ _ (by decide)⟩

/-- C12: in every trie, whatever metadata it holds, a string `x` that is not a path
from the root (the walk meets a character with no matching child) is answered
`(-1, 0)` by `getPositionAndLength` and `0` by `countWordsWithPrefix`. -/
theorem not_a_path_answers (t : Trie) (x : List Char) (h : t.root.walk x = none) :
    t.getPositionAndLength x = (-1, 0) ∧ t.countWordsWithPrefix x = 0 :=
  ⟨TrieNode.positionFrom_of_walk_none x t.root h, TrieNode.countFrom_of_walk_none x t.root h⟩

/-- Witness for C12 on the trie holding `cat` at `(-5, 3)` and the string `cow`. -/
theorem not_a_path_answers_witness :
    (Trie.insertAll Trie.new [("cat".toList, -5, 3)]).root.walk "cow".toList = none
      ∧ (Trie.insertAll Trie.new [("cat".toList, -5, 3)]).getPositionAndLength "cow".toList
          = (-1, 0)
      ∧ (Trie.insertAll Trie.new [("cat".toList, -5, 3)]).countWordsWithPrefix "cow".toList = 0 :=
  ⟨rfl, not_a_path_answers _ _ rfl⟩

/-! ## The nodes of a trie under insertion -/

namespace TrieNode

theorem mem_subnodes_iff (n m : TrieNode) :
    m ∈ subnodes n ↔ m = n ∨ m ∈ subnodesChildren n.children := by
  obtain ⟨cs, e, s, l⟩ := n
  simp [subnodes, children]

theorem self_mem_subnodes (n : TrieNode) : n ∈ subnodes n :=
  (mem_subnodes_iff n n).mpr (Or.inl rfl)

theorem mem_subnodesChildren_of_find (cs : List (Char × TrieNode)) (ch : Char)
    (child m : TrieNode) (hf : find cs ch = some child) (hm : m ∈ subnodes child) :
    m ∈ subnodesChildren cs := by
  induction cs with
  | nil => simp [find] at hf
  | cons hd tl ih =>
    obtain ⟨k, t⟩ := hd
    by_cases hk : k = ch
    · simp only [find, hk, if_true, Option.some.injEq] at hf
      subst hf
      simp [subnodesChildren, hm]
    · simp only [find, hk, if_false] at hf
      simp [subnodesChildren, ih hf]

theorem mem_subnodesChildren_assign (cs : List (Char × TrieNode)) (ch : Char)
    (x m : TrieNode) (h : m ∈ subnodesChildren (assign cs ch x)) :
    m ∈ subnodes x ∨ m ∈ subnodesChildren cs := by
  induction cs with
  | nil => simpa [assign, subnodesChildren] using h
  | cons hd tl ih =>
    obtain ⟨k, t⟩ := hd
    by_cases hk : k = ch
    · simp only [assign, hk, if_true, subnodesChildren, List.mem_append] at h
      rcases h with h | h
      · exact Or.inl h
      · exact Or.inr (by simp [subnodesChildren, h])
    · simp only [assign, hk, if_false, subnodesChildren, List.mem_append] at h
      rcases h with h | h
      · exact Or.inr (by simp [subnodesChildren, h])
      · rcases ih h with h2 | h2
        · exact Or.inl h2
        · exact Or.inr (by simp [subnodesChildren, h2])

theorem walk_mem_subnodes (w : List Char) :
    ∀ n m : TrieNode, walk n w = some m → m ∈ subnodes n := by
  induction w with
  | nil =>
    intro n m h
    simp only [walk, Option.some.injEq] at h
    subst h
    exact self_mem_subnodes _
  | cons c ws ih =>
    intro n m h
    cases hf : find n.children c with
    | none => simp [walk, hf] at h
    | some child =>
      simp only [walk, hf] at h
      exact (mem_subnodes_iff n m).mpr
        (Or.inr (mem_subnodesChildren_of_find _ _ _ _ hf (ih child m h)))

theorem walk_mem_subnodesChildren (w : List Char) (hw : w ≠ []) (n m : TrieNode)
    (h : walk n w = some m) : m ∈ subnodesChildren n.children := by
  cases w with
  | nil => exact absurd rfl hw
  | cons c ws =>
    cases hf : find n.children c with
    | none => simp [walk, hf] at h
    | some child =>
      simp only [walk, hf] at h
      exact mem_subnodesChildren_of_find _ _ _ _ hf (walk_mem_subnodes ws child m h)

/-- Every node below the root after an insertion was below the root before, or is
the result of the insertion walk on an earlier node or on a fresh node. -/
theorem subnodesChildren_insertFrom (t : List Char) (sp ll : Int) :
    ∀ node m : TrieNode, m ∈ subnodesChildren (insertFrom node t sp ll).children →
      m ∈ subnodesChildren node.children
        ∨ ∃ n0 w, (n0 = new ∨ n0 ∈ subnodesChildren node.children)
            ∧ m = insertFrom n0 w sp ll := by
  induction t with
  | nil =>
    intro node m h
    obtain ⟨cs, e, s, l⟩ := node
    exact Or.inl (by simpa [insertFrom, children] using h)
  | cons ch rest ih =>
    intro node m h
    obtain ⟨cs, e, s, l⟩ := node
    cases hf : find cs ch with
    | none =>
      simp only [insertFrom, hf, children] at h
      rcases mem_subnodesChildren_assign _ _ _ _ h with h1 | h1
      · rcases (mem_subnodes_iff _ _).mp h1 with h2 | h2
        · exact Or.inr ⟨new, rest, Or.inl rfl, h2⟩
        · rcases ih new m h2 with h3 | ⟨n0, w, hn0, hm⟩
          · simp [new, children, subnodesChildren] at h3
          · rcases hn0 with hn0 | hn0
            · exact Or.inr ⟨n0, w, Or.inl hn0, hm⟩
            · simp [new, children, subnodesChildren] at hn0
      · exact Or.inl (by simpa [children] using h1)
    | some child =>
      simp only [insertFrom, hf, children] at h
      have hsub : ∀ x, x ∈ subnodes child → x ∈ subnodesChildren cs :=
        fun x hx => mem_subnodesChildren_of_find _ _ _ _ hf hx
      rcases mem_subnodesChildren_assign _ _ _ _ h with h1 | h1
      · rcases (mem_subnodes_iff _ _).mp h1 with h2 | h2
        · exact Or.inr ⟨child, rest, Or.inr (by
            simpa [children] using hsub _ (self_mem_subnodes child)), h2⟩
        · rcases ih child m h2 with h3 | ⟨n0, w, hn0, hm⟩
          · exact Or.inl (by
              simpa [children] using hsub _ ((mem_subnodes_iff _ _).mpr (Or.inr h3)))
          · rcases hn0 with hn0 | hn0
            · exact Or.inr ⟨n0, w, Or.inl hn0, hm⟩
            · exact Or.inr ⟨n0, w, Or.inr (by
                simpa [children] using hsub _ ((mem_subnodes_iff _ _).mpr (Or.inr hn0))), hm⟩
      · exact Or.inl (by simpa [children] using h1)

theorem subnodes_insertFrom (t : List Char) (sp ll : Int) (node m : TrieNode)
    (h : m ∈ subnodes (insertFrom node t sp ll)) :
    m ∈ subnodes node
      ∨ ∃ n0 w, (n0 = new ∨ n0 ∈ subnodes node) ∧ m = insertFrom n0 w sp ll := by
  rcases (mem_subnodes_iff _ _).mp h with h1 | h1
  · exact Or.inr ⟨node, t, Or.inr (self_mem_subnodes node), h1⟩
  · rcases subnodesChildren_insertFrom t sp ll node m h1 with h2 | ⟨n0, w, hn0, hm⟩
    · exact Or.inl ((mem_subnodes_iff _ _).mpr (Or.inr h2))
    · rcases hn0 with hn0 | hn0
      · exact Or.inr ⟨n0, w, Or.inl hn0, hm⟩
      · exact Or.inr ⟨n0, w, Or.inr ((mem_subnodes_iff _ _).mpr (Or.inr hn0)), hm⟩

theorem fields_insertFrom (n0 : TrieNode) (w : List Char) (sp ll : Int) :
    fields (insertFrom n0 w sp ll) = if w = [] then (true, sp, ll) else fields n0 := by
  obtain ⟨cs, e, s, l⟩ := n0
  cases w with
  | nil => simp [insertFrom, fields, isEndOfWord, startPos, lineLength]
  | cons c ws =>
    cases hf : find cs c <;>
      simp [insertFrom, hf, fields, isEndOfWord, startPos, lineLength]

theorem countWords_insertFrom_pos (w : List Char) (sp ll : Int) :
    ∀ n0 : TrieNode, 1 ≤ countWords (insertFrom n0 w sp ll) := by
  intro n0
  rw [countWords_insertFrom]
  cases h : terminalAt n0 w
  · simp
  · simp only [if_true, Nat.add_zero]
    have h1 := countFrom_le_countWords w n0
    have h2 : 1 ≤ countFrom n0 w := by
      clear h1
      induction w generalizing n0 with
      | nil =>
        obtain ⟨cs, e, s, l⟩ := n0
        simp only [terminalAt, isEndOfWord] at h
        simp [countFrom, countWords, h]
      | cons c ws ih =>
        cases hf : find n0.children c with
        | none => simp [terminalAt, hf] at h
        | some child =>
          simp only [terminalAt, hf] at h
          simpa [countFrom, hf] using ih child h
    omega

/-- The sentinel discipline of a node: `startPos` differs from `-1` exactly on
terminal nodes, and a non-terminal node stores `(-1, 0)`. -/
theorem wellMarked_insertFrom (n0 : TrieNode) (w : List Char) (sp ll : Int) (hsp : 0 ≤ sp)
    (h0 : (n0.startPos ≠ -1 ↔ n0.isEndOfWord = true)
      ∧ (n0.isEndOfWord = false → n0.startPos = -1 ∧ n0.lineLength = 0)) :
    ((insertFrom n0 w sp ll).startPos ≠ -1 ↔ (insertFrom n0 w sp ll).isEndOfWord = true)
      ∧ ((insertFrom n0 w sp ll).isEndOfWord = false →
          (insertFrom n0 w sp ll).startPos = -1 ∧ (insertFrom n0 w sp ll).lineLength = 0) := by
  have hf := fields_insertFrom n0 w sp ll
  by_cases hw : w = []
  · simp only [hw, if_true, fields, Prod.mk.injEq] at hf
    obtain ⟨h1, h2, h3⟩ := hf
    subst hw
    rw [h1, h2, h3]
    constructor
    · constructor
      · intro _; rfl
      · intro _; omega
    · intro h; exact absurd h (by simp)
  · simp only [hw, if_false, fields, Prod.mk.injEq] at hf
    obtain ⟨h1, h2, h3⟩ := hf
    rw [h1, h2, h3]
    exact h0

end TrieNode

namespace TrieNode

mutual
/-- The count of a node is positive exactly when its subtree holds a terminal node. -/
theorem countWords_pos_iff : ∀ n : TrieNode,
    1 ≤ countWords n ↔ ∃ m ∈ subnodes n, m.isEndOfWord = true
  | mk cs e s l => by
    have ih := countWordsChildren_pos_iff cs
    simp only [countWords, subnodes, List.mem_cons, exists_eq_or_imp, isEndOfWord]
    cases e
    · simp only [Bool.false_eq_true, if_false, Nat.zero_add, false_or]
      exact ih
    · simp
/-- The same for the entries of a children map. -/
theorem countWordsChildren_pos_iff : ∀ cs : List (Char × TrieNode),
    1 ≤ countWordsChildren cs ↔ ∃ m ∈ subnodesChildren cs, m.isEndOfWord = true
  | [] => by simp [countWordsChildren, subnodesChildren]
  | (_, t) :: rest => by
    have ih1 := countWords_pos_iff t
    have ih2 := countWordsChildren_pos_iff rest
    simp only [countWordsChildren, subnodesChildren, List.mem_append]
    constructor
    · intro h
      by_cases h1 : 1 ≤ countWords t
      · obtain ⟨m, hm, hterm⟩ := ih1.mp h1
        exact ⟨m, Or.inl hm, hterm⟩
      · obtain ⟨m, hm, hterm⟩ := ih2.mp (by omega)
        exact ⟨m, Or.inr hm, hterm⟩
    · rintro ⟨m, hm | hm, hterm⟩
      · have := ih1.mpr ⟨m, hm, hterm⟩
        omega
      · have := ih2.mpr ⟨m, hm, hterm⟩
        omega
end

end TrieNode

/-! ## Invariants of the tries reached by insertions -/

namespace Trie

theorem root_insertAll_snoc (xs : List (List Char × Int × Int)) (r : List Char × Int × Int) :
    (insertAll Trie.new (xs ++ [r])).root
      = (insertAll Trie.new xs).root.insertFrom r.1 r.2.1 r.2.2 := by
  rw [insertAll_snoc]
  rfl

theorem wellMarked_insertAll (recs : List (List Char × Int × Int))
    (hoff : ∀ r ∈ recs, 0 ≤ r.2.1) :
    ∀ m ∈ TrieNode.subnodes (insertAll Trie.new recs).root,
      (m.startPos ≠ -1 ↔ m.isEndOfWord = true)
        ∧ (m.isEndOfWord = false → m.startPos = -1 ∧ m.lineLength = 0) := by
  have hnew : (TrieNode.new.startPos ≠ -1 ↔ TrieNode.new.isEndOfWord = true)
      ∧ (TrieNode.new.isEndOfWord = false →
          TrieNode.new.startPos = -1 ∧ TrieNode.new.lineLength = 0) := by
    simp [TrieNode.new, TrieNode.startPos, TrieNode.isEndOfWord, TrieNode.lineLength]
  induction recs using List.reverseRecOn with
  | nil =>
    intro m hm
    have : m = TrieNode.new := by
      simpa [insertAll, Trie.new, TrieNode.new, TrieNode.subnodes,
        TrieNode.subnodesChildren] using hm
    rw [this]
    exact hnew
  | append_singleton xs r ih =>
    intro m hm
    have ih2 := ih (fun x hx => hoff x (by simp [hx]))
    have hr : 0 ≤ r.2.1 := hoff r (by simp)
    rw [root_insertAll_snoc] at hm
    rcases TrieNode.subnodes_insertFrom _ _ _ _ m hm with h | ⟨n0, w, hn0, rfl⟩
    · exact ih2 m h
    · rcases hn0 with hn0 | hn0
      · subst hn0
        exact TrieNode.wellMarked_insertFrom _ w _ _ hr hnew
      · exact TrieNode.wellMarked_insertFrom n0 w _ _ hr (ih2 n0 hn0)

theorem countWords_pos_insertAll (recs : List (List Char × Int × Int)) :
    ∀ m ∈ TrieNode.subnodesChildren (insertAll Trie.new recs).root.children,
      1 ≤ TrieNode.countWords m := by
  induction recs using List.reverseRecOn with
  | nil =>
    intro m hm
    simp [insertAll, Trie.new, TrieNode.new, TrieNode.children,
      TrieNode.subnodesChildren] at hm
  | append_singleton xs r ih =>
    intro m hm
    rw [root_insertAll_snoc] at hm
    rcases TrieNode.subnodesChildren_insertFrom _ _ _ _ m hm with h | ⟨n0, w, _, rfl⟩
    · exact ih m h
    · exact TrieNode.countWords_insertFrom_pos w _ _ n0

end Trie

/-- C13: in every trie reached from the empty one by inserting records with
`byteOffset ≥ 0` and `lineLength ≥ 0`, every node has `startPos ≠ -1` exactly when
it is terminal, and every non-terminal node stores the sentinel `(-1, 0)`; the
node created for a missing child has no children, is not terminal and stores the
sentinel. -/
theorem node_invariant (recs : List (List Char × Int × Int))
    (hrec : ∀ r ∈ recs, 0 ≤ r.2.1 ∧ 0 ≤ r.2.2) :
    (∀ m ∈ TrieNode.subnodes (Trie.insertAll Trie.new recs).root,
        (m.startPos ≠ -1 ↔ m.isEndOfWord = true)
          ∧ (m.isEndOfWord = false → (m.startPos, m.lineLength) = (-1, 0)))
      ∧ TrieNode.new.children = []
      ∧ TrieNode.new.isEndOfWord = false
      ∧ (TrieNode.new.startPos, TrieNode.new.lineLength) = (-1, 0)
      ∧ (∀ cs e s l ch rest sp ll, TrieNode.find cs ch = none →
          TrieNode.find (TrieNode.insertFrom (TrieNode.mk cs e s l) (ch :: rest) sp ll).children ch
            = some (TrieNode.insertFrom TrieNode.new rest sp ll)) := by
  refine ⟨?_, rfl, rfl, rfl, ?_⟩
  · intro m hm
    have h := Trie.wellMarked_insertAll recs (fun r hr => (hrec r hr).1) m hm
    refine ⟨h.1, fun hne => ?_⟩
    obtain ⟨h1, h2⟩ := h.2 hne
    rw [h1, h2]
  · intro cs e s l ch rest sp ll hf
    simp [TrieNode.insertFrom, hf, TrieNode.children, TrieNode.find_assign_self]

/-- Witness for C13 on the records `("cat", 0, 8)` and `("car", 9, 7)`: the root of
the trie they build is not terminal and stores the sentinel. -/
theorem node_invariant_witness :
    (∀ r ∈ [("cat".toList, (0 : Int), (8 : Int)), ("car".toList, 9, 7)], 0 ≤ r.2.1 ∧ 0 ≤ r.2.2)
      ∧ (((Trie.insertAll Trie.new [("cat".toList, 0, 8), ("car".toList, 9, 7)]).root.startPos ≠ -1
          ↔ (Trie.insertAll Trie.new [("cat".toList, 0, 8), ("car".toList, 9, 7)]).root.isEndOfWord
              = true)
        ∧ ((Trie.insertAll Trie.new [("cat".toList, 0, 8), ("car".toList, 9, 7)]).root.isEndOfWord
              = false →
            ((Trie.insertAll Trie.new [("cat".toList, 0, 8), ("car".toList, 9, 7)]).root.startPos,
              (Trie.insertAll Trie.new [("cat".toList, 0, 8), ("car".toList, 9, 7)]).root.lineLength)
              = (-1, 0))) :=
  ⟨by decide,
    (node_invariant [("cat".toList, 0, 8), ("car".toList, 9, 7)] (by decide)).1 _
      (TrieNode.self_mem_subnodes _)⟩

theorem queryStep_eq_notPrefix_iff (t : Trie) (q : List Char) :
    queryStep t q = [OutLine.isNotPrefix q] ↔ t.countWordsWithPrefix q = 0 := by
  constructor
  · intro h
    by_contra hne
    rw [queryStep_of_count_pos t q hne] at h
    simp at h
  · exact queryStep_of_count_eq_zero t q

/-- C17: in every trie reached from the empty one by insertions, every node other
than the root has a terminal node in its subtree (itself included); hence for a
non-empty string `p` the count is `0` exactly when the walk along `p` meets a
missing child, and the query step prints "is not prefix" for `p` exactly then. -/
theorem no_dead_branches (recs : List (List Char × Int × Int)) :
    (∀ m ∈ TrieNode.subnodesChildren (Trie.insertAll Trie.new recs).root.children,
        ∃ n ∈ TrieNode.subnodes m, n.isEndOfWord = true)
      ∧ (∀ p, p ≠ [] →
          ((Trie.insertAll Trie.new recs).countWordsWithPrefix p = 0
            ↔ (Trie.insertAll Trie.new recs).root.walk p = none))
      ∧ (∀ p, p ≠ [] →
          (queryStep (Trie.insertAll Trie.new recs) p = [OutLine.isNotPrefix p]
            ↔ (Trie.insertAll Trie.new recs).root.walk p = none)) := by
  have hcount : ∀ p, p ≠ [] →
      ((Trie.insertAll Trie.new recs).countWordsWithPrefix p = 0
        ↔ (Trie.insertAll Trie.new recs).root.walk p = none) := by
    intro p hp
    constructor
    · intro h0
      cases hw : (Trie.insertAll Trie.new recs).root.walk p with
      | none => rfl
      | some m =>
        exfalso
        have h1 := Trie.countWords_pos_insertAll recs m
          (TrieNode.walk_mem_subnodesChildren p hp _ m hw)
        have h2 := TrieNode.countFrom_of_walk p _ m hw
        unfold Trie.countWordsWithPrefix at h0
        omega
    · intro hw
      exact TrieNode.countFrom_of_walk_none p _ hw
  refine ⟨?_, hcount, ?_⟩
  · intro m hm
    exact (TrieNode.countWords_pos_iff m).mp (Trie.countWords_pos_insertAll recs m hm)
  · intro p hp
    rw [queryStep_eq_notPrefix_iff]
    exact hcount p hp

/-- Witness for C17 on the records `("cat", 0, 8)`, `("car", 9, 7)` and the string `co`. -/
theorem no_dead_branches_witness :
    "co".toList ≠ []
      ∧ ((Trie.insertAll Trie.new [("cat".toList, 0, 8), ("car".toList, 9, 7)]).countWordsWithPrefix
            "co".toList = 0
          ↔ (Trie.insertAll Trie.new [("cat".toList, 0, 8), ("car".toList, 9, 7)]).root.walk
            "co".toList = none) :=
  ⟨by decide,
    (no_dead_branches [("cat".toList, 0, 8), ("car".toList, 9, 7)]).2.1 "co".toList (by decide)⟩

/-! ## Records passed to `insert` by the extraction loop -/

theorem findChar_replicate_of_ne (n : Nat) (x c : Char) (h : x ≠ c) :
    findChar (List.replicate n x) c = none := by
  induction n with
  | zero => rfl
  | succ k ih => simp [List.replicate_succ, findChar, h, ih]

theorem extractToken_replicate (n : Nat) : extractToken (List.replicate n 'x') = none := by
  unfold extractToken
  rw [findChar_replicate_of_ne n 'x' '[' (by decide)]

theorem mem_expectedRecords (lines : List (List Char)) (r : List Char × Int × Int)
    (h : r ∈ expectedRecords lines) :
    ∃ i w, extractToken (lines.getD i []) = some w
      ∧ r = (w, lineOffset lines i, ((lines.getD i []).length : Int)) := by
  unfold expectedRecords at h
  rw [List.mem_filterMap] at h
  obtain ⟨i, _, hi⟩ := h
  unfold expectedRecord at hi
  rw [Option.map_eq_some'] at hi
  obtain ⟨w, hw, hr⟩ := hi
  exact ⟨i, w, hw, hr.symm⟩

theorem buildTrie_calls_nonempty (lines : List (List Char)) :
    ∀ r ∈ (buildTrie lines).calls, r.1 ≠ [] := by
  induction lines using List.reverseRecOn with
  | nil => simp [buildTrie]
  | append_singleton xs l ih =>
    rw [buildTrie_snoc]
    unfold processLine
    cases he : extractToken l with
    | none => simpa using ih
    | some w =>
      obtain ⟨_, _, _, _, _, _, hne⟩ := (extractToken_eq_some_iff l w).mp he
      intro r hr
      simp only [List.mem_append, List.mem_singleton] at hr
      rcases hr with hr | hr
      · exact ih r hr
      · rw [hr]; exact hne

theorem buildTrie_two_lines (l1 l2 w : List Char) (h1 : extractToken l1 = none)
    (h2 : extractToken l2 = some w) :
    (buildTrie [l1, l2]).calls
      = [(w, toInt32 (0 + (l1.length : Int) + 1), toInt32 (l2.length : Int))] := by
  simp [buildTrie, processLine, h1, h2]

/-- C14 as stated fails: a first line of `2^31 - 1` characters without brackets
makes the 32-bit accumulator wrap, and the token of the second line `[a]` is
passed to `insert` with the offset `-2^31`. -/
theorem offset_wraps_negative :
    (buildTrie [List.replicate (2 ^ 31 - 1) 'x', "[a]".toList]).calls
        = [("a".toList, -(2 ^ 31), 3)]
      ∧ ¬ (∀ r ∈ (buildTrie [List.replicate (2 ^ 31 - 1) 'x', "[a]".toList]).calls,
            0 ≤ r.2.1 ∧ 0 ≤ r.2.2) := by
  have h2 : extractToken "[a]".toList = some "a".toList := by decide
  have h3 : toInt32 ("[a]".toList.length : Int) = 3 := by decide
  have e1 : toInt32 (0 + ((2 ^ 31 - 1 : Nat) : Int) + 1) = -(2 ^ 31) := by decide
  have hcalls : (buildTrie [List.replicate (2 ^ 31 - 1) 'x', "[a]".toList]).calls
      = [("a".toList, -(2 ^ 31), 3)] := by
    rw [buildTrie_two_lines _ _ _ (extractToken_replicate _) h2, List.length_replicate,
      e1, h3]
  refine ⟨hcalls, ?_⟩
  rw [hcalls]
  intro h
  have hneg := (h _ (List.mem_singleton.mpr rfl)).1
  revert hneg
  decide

/-- C14 (amended): for every sequence of lines whose total size, each line counted
with its terminator, is below `2^31`, every record passed to `insert` has
`byteOffset ≥ 0` and `lineLength ≥ 0`. -/
theorem records_nonneg_of_small (lines : List (List Char))
    (h : ((lines.map (fun l => (l.length : Int) + 1)).sum) < 2 ^ 31) :
    ∀ r ∈ (buildTrie lines).calls, 0 ≤ r.2.1 ∧ 0 ≤ r.2.2 := by
  have hh : lineOffset lines lines.length < 2 ^ 31 := by simpa [lineOffset] using h
  intro r hr
  rw [(buildTrie_calls lines hh).1] at hr
  obtain ⟨i, w, _, rfl⟩ := mem_expectedRecords lines r hr
  exact ⟨lineOffset_nonneg lines i, Int.ofNat_nonneg _⟩

/-- Witness for C14 (amended) on the file with lines `a[cat]bc` and `x[car]y`. -/
theorem records_nonneg_of_small_witness :
    (((["a[cat]bc".toList, "x[car]y".toList].map (fun l => (l.length : Int) + 1)).sum) < 2 ^ 31)
      ∧ ∀ r ∈ (buildTrie ["a[cat]bc".toList, "x[car]y".toList]).calls, 0 ≤ r.2.1 ∧ 0 ≤ r.2.2 :=
  ⟨by decide, records_nonneg_of_small ["a[cat]bc".toList, "x[car]y".toList] (by decide)⟩

/-- C15: for every sequence of lines, no token passed to `insert` is empty (a line
whose brackets enclose nothing is skipped), so the root of the trie built by the
extraction loop is not terminal and the lookup of the empty string answers
`(-1, 0)`. -/
theorem extractor_never_emits_empty (lines : List (List Char)) :
    (∀ line ∈ lines, extractToken line ≠ some [])
      ∧ (∀ r ∈ (buildTrie lines).calls, r.1 ≠ [])
      ∧ (buildTrie lines).trie.root.isEndOfWord = false
      ∧ (buildTrie lines).trie.getPositionAndLength [] = (-1, 0) := by
  have hcalls := buildTrie_calls_nonempty lines
  have hnot : ([] : List Char) ∉ textsOf (buildTrie lines).calls := by
    intro hmem
    simp only [textsOf, List.mem_map] at hmem
    obtain ⟨r, hr, he⟩ := hmem
    exact hcalls r hr he
  refine ⟨?_, hcalls, ?_, ?_⟩
  · intro line _ he
    obtain ⟨_, _, _, _, _, _, hne⟩ := (extractToken_eq_some_iff line []).mp he
    exact hne rfl
  · have hterm := Trie.isTerminal_insertAll (buildTrie lines).calls []
    rw [← buildTrie_trie] at hterm
    cases hroot : (buildTrie lines).trie.root.isEndOfWord with
    | false => rfl
    | true => exact absurd (hterm.mp hroot) hnot
  · rw [buildTrie_trie, Trie.getPositionAndLength_insertAll_of_not_mem _ _ _ hnot,
      Trie.getPositionAndLength_new]

/-- Witness for C15 on the file with lines `a[]b`, `[x]` and `][`. -/
theorem extractor_never_emits_empty_witness :
    (∀ line ∈ ["a[]b".toList, "[x]".toList, "][".toList], extractToken line ≠ some [])
      ∧ (buildTrie ["a[]b".toList, "[x]".toList, "][".toList]).calls = [("x".toList, 5, 3)]
      ∧ (buildTrie ["a[]b".toList, "[x]".toList, "][".toList]).trie.getPositionAndLength []
          = (-1, 0) :=
  ⟨(extractor_never_emits_empty ["a[]b".toList, "[x]".toList, "][".toList]).1, by decide,
    (extractor_never_emits_empty ["a[]b".toList, "[x]".toList, "][".toList]).2.2.2⟩

/-! ## Effect of one insertion on the paths of a trie -/

namespace TrieNode

theorem fieldsAt_nil (n : TrieNode) : fieldsAt n [] = some (fields n) := rfl

theorem fieldsAt_cons_none (n : TrieNode) (c : Char) (ws : List Char)
    (h : find n.children c = none) : fieldsAt n (c :: ws) = none := by
  simp [fieldsAt, walk, h]

theorem fieldsAt_cons_some (n child : TrieNode) (c : Char) (ws : List Char)
    (h : find n.children c = some child) : fieldsAt n (c :: ws) = fieldsAt child ws := by
  simp [fieldsAt, walk, h]

theorem fieldsAt_new_getD (w : List Char) :
    (fieldsAt new w).getD (false, -1, 0) = (false, -1, 0) := by
  cases w with
  | nil => rfl
  | cons c ws => rfl

theorem fieldsAt_new_of_ne_nil (w : List Char) (h : w ≠ []) : fieldsAt new w = none := by
  cases w with
  | nil => exact absurd rfl h
  | cons c ws => rfl

theorem walk_new_of_ne_nil (w : List Char) (h : w ≠ []) : walk new w = none := by
  cases w with
  | nil => exact absurd rfl h
  | cons c ws => rfl

/-- A path that is not a prefix of the inserted text reaches the same node, with
the same subtree, before and after the insertion. -/
theorem walk_insertFrom_off_path (t : List Char) (sp ll : Int) :
    ∀ (n : TrieNode) (w : List Char), ¬ w <+: t →
      walk (insertFrom n t sp ll) w = walk n w := by
  induction t with
  | nil =>
    intro n w hw
    obtain ⟨cs, e, s, l⟩ := n
    cases w with
    | nil => exact absurd (List.prefix_refl _) hw
    | cons c ws => simp [insertFrom, walk, children]
  | cons ch rest ih =>
    intro n w hw
    obtain ⟨cs, e, s, l⟩ := n
    cases w with
    | nil => exact absurd (List.nil_prefix) hw
    | cons c ws =>
      by_cases hc : c = ch
      · subst hc
        have hws : ¬ ws <+: rest := fun h => hw ((List.cons_prefix_cons).mpr ⟨rfl, h⟩)
        have hne : ws ≠ [] := fun h => hws (h ▸ List.nil_prefix)
        cases hf : find cs c with
        | none =>
          simp only [insertFrom, hf, walk, children, find_assign_self, ih new ws hws]
          exact walk_new_of_ne_nil ws hne
        | some child =>
          simp only [insertFrom, hf, walk, children, find_assign_self, ih child ws hws]
      · cases hf : find cs ch <;>
          simp [insertFrom, hf, walk, children, find_assign_ne _ _ hc]

/-- Every prefix of the inserted text is a path after the insertion. -/
theorem walk_insertFrom_isSome (t : List Char) (sp ll : Int) :
    ∀ (n : TrieNode) (w : List Char), w <+: t →
      (walk (insertFrom n t sp ll) w).isSome = true := by
  induction t with
  | nil =>
    intro n w hw
    have : w = [] := List.prefix_nil.mp hw
    subst this
    rfl
  | cons ch rest ih =>
    intro n w hw
    obtain ⟨cs, e, s, l⟩ := n
    cases w with
    | nil => rfl
    | cons c ws =>
      obtain ⟨hc, hws⟩ := (List.cons_prefix_cons).mp hw
      subst hc
      cases hf : find cs c with
      | none =>
        simp only [insertFrom, hf, walk, children, find_assign_self]
        exact ih new ws hws
      | some child =>
        simp only [insertFrom, hf, walk, children, find_assign_self]
        exact ih child ws hws

/-- The data found along every path after an insertion. -/
theorem fieldsAt_insertFrom (t : List Char) (sp ll : Int) :
    ∀ (n : TrieNode) (w : List Char),
      fieldsAt (insertFrom n t sp ll) w
        = if w = t then some (true, sp, ll)
          else if w <+: t then some ((fieldsAt n w).getD (false, -1, 0))
          else fieldsAt n w := by
  induction t with
  | nil =>
    intro n w
    obtain ⟨cs, e, s, l⟩ := n
    cases w with
    | nil => simp [insertFrom, fieldsAt, walk, fields, isEndOfWord, startPos, lineLength]
    | cons c ws => simp [insertFrom, fieldsAt, walk, children]
  | cons ch rest ih =>
    intro n w
    obtain ⟨cs, e, s, l⟩ := n
    cases w with
    | nil =>
      cases hf : find cs ch <;>
        simp [insertFrom, hf, fieldsAt, walk, fields, isEndOfWord, startPos, lineLength]
    | cons c ws =>
      by_cases hc : c = ch
      · subst hc
        cases hf : find cs c with
        | none =>
          have hold : fieldsAt (mk cs e s l) (c :: ws) = none :=
            fieldsAt_cons_none _ c ws (by simpa [children] using hf)
          have hnew : fieldsAt (insertFrom (mk cs e s l) (c :: rest) sp ll) (c :: ws)
              = fieldsAt (insertFrom new rest sp ll) ws :=
            fieldsAt_cons_some _ _ c ws (by
              simp [insertFrom, hf, children, find_assign_self])
          rw [hnew, ih new ws, hold]
          by_cases h1 : ws = rest
          · simp [h1]
          · by_cases h2 : ws <+: rest
            · simp [h1, h2, List.cons_prefix_cons, fieldsAt_new_getD]
            · have hne : ws ≠ [] := fun h => h2 (h ▸ List.nil_prefix)
              simp [h1, h2, List.cons_prefix_cons, fieldsAt_new_of_ne_nil ws hne]
        | some child =>
          have hold : fieldsAt (mk cs e s l) (c :: ws) = fieldsAt child ws :=
            fieldsAt_cons_some _ _ c ws (by simpa [children] using hf)
          have hnew : fieldsAt (insertFrom (mk cs e s l) (c :: rest) sp ll) (c :: ws)
              = fieldsAt (insertFrom child rest sp ll) ws :=
            fieldsAt_cons_some _ _ c ws (by
              simp [insertFrom, hf, children, find_assign_self])
          rw [hnew, ih child ws, hold]
          by_cases h1 : ws = rest
          · simp [h1]
          · by_cases h2 : ws <+: rest <;> simp [h1, h2, List.cons_prefix_cons]
      · have hnp : ¬ (c :: ws) <+: (ch :: rest) := fun h =>
          hc ((List.cons_prefix_cons).mp h).1
        have hne : ¬ (c :: ws) = (ch :: rest) := fun h => hc (List.cons.inj h).1
        rw [if_neg hne, if_neg hnp]
        unfold fieldsAt
        rw [walk_insertFrom_off_path _ _ _ _ _ hnp]

theorem assign_assign (cs : List (Char × TrieNode)) (ch : Char) (x y : TrieNode) :
    assign (assign cs ch x) ch y = assign cs ch y := by
  induction cs with
  | nil => simp [assign]
  | cons hd tl ih =>
    obtain ⟨k, t⟩ := hd
    by_cases hk : k = ch
    · simp [assign, hk]
    · simp [assign, hk, ih]

/-- Inserting the same record a second time changes nothing at all. -/
theorem insertFrom_idem (t : List Char) (sp ll : Int) :
    ∀ n : TrieNode,
      insertFrom (insertFrom n t sp ll) t sp ll = insertFrom n t sp ll := by
  induction t with
  | nil =>
    intro n
    obtain ⟨cs, e, s, l⟩ := n
    simp [insertFrom]
  | cons ch rest ih =>
    intro n
    obtain ⟨cs, e, s, l⟩ := n
    cases hf : find cs ch with
    | none =>
      simp only [insertFrom, hf, find_assign_self, ih, assign_assign]
    | some child =>
      simp only [insertFrom, hf, find_assign_self, ih, assign_assign]

end TrieNode

/-! ## Frame and commutation of insertions -/

/-- C16: `insert t off len` leaves the lookup of every `u ≠ t` and the count of
every `p` that is not a prefix of `t` unchanged; every node that existed is still
there, with the same data unless it is the end node of `t`; and a path that is not
a prefix of `t` reaches exactly the node it reached before, so that nodes are
created only along the path of `t`. -/
theorem insert_frame (tr : Trie) (t : List Char) (off len : Int) :
    (∀ u, u ≠ t → (tr.insert t off len).getPositionAndLength u = tr.getPositionAndLength u)
      ∧ (∀ p, ¬ p <+: t →
          (tr.insert t off len).countWordsWithPrefix p = tr.countWordsWithPrefix p)
      ∧ (∀ w m, tr.root.walk w = some m →
          ∃ m', (tr.insert t off len).root.walk w = some m' ∧ (w ≠ t → m'.fields = m.fields))
      ∧ (∀ w, ¬ w <+: t → (tr.insert t off len).root.walk w = tr.root.walk w)
      ∧ (∀ w, ((tr.insert t off len).root.walk w).isSome = true →
          (tr.root.walk w).isSome = true ∨ w <+: t) := by
  have hoff : ∀ w, ¬ w <+: t → (tr.insert t off len).root.walk w = tr.root.walk w :=
    fun w hw => TrieNode.walk_insertFrom_off_path t off len tr.root w hw
  refine ⟨?_, ?_, ?_, hoff, ?_⟩
  · intro u hu
    rw [Trie.getPositionAndLength_insert, if_neg hu]
  · intro p hp
    have hpre : ¬ (p.isPrefixOf t = true) := fun h => hp (List.isPrefixOf_iff_prefix.mp h)
    rw [Trie.countWordsWithPrefix_insert]
    simp [hpre]
  · intro w m hw
    by_cases hp : w <+: t
    · have hsome := TrieNode.walk_insertFrom_isSome t off len tr.root w hp
      obtain ⟨m', hm'⟩ := Option.isSome_iff_exists.mp hsome
      refine ⟨m', hm', fun hne => ?_⟩
      have hf := TrieNode.fieldsAt_insertFrom t off len tr.root w
      rw [if_neg hne, if_pos hp] at hf
      simp only [TrieNode.fieldsAt, hm', hw, Option.map_some', Option.getD_some,
        Option.some.injEq] at hf
      exact hf
    · exact ⟨m, (hoff w hp).trans hw, fun _ => rfl⟩
  · intro w hw
    by_cases hp : w <+: t
    · exact Or.inr hp
    · rw [hoff w hp] at hw
      exact Or.inl hw

/-- Witness for C16: inserting `cat` into the trie holding `car` leaves the lookup
of `car` and the count of `co` as they were. -/
theorem insert_frame_witness :
    "car".toList ≠ "cat".toList
      ∧ ((Trie.insertAll Trie.new [("car".toList, 9, 7)]).insert "cat".toList 0 8).getPositionAndLength
            "car".toList
          = (Trie.insertAll Trie.new [("car".toList, 9, 7)]).getPositionAndLength "car".toList
      ∧ ¬ "co".toList <+: "cat".toList
      ∧ ((Trie.insertAll Trie.new [("car".toList, 9, 7)]).insert "cat".toList 0 8).countWordsWithPrefix
            "co".toList
          = (Trie.insertAll Trie.new [("car".toList, 9, 7)]).countWordsWithPrefix "co".toList :=
  ⟨by decide,
    (insert_frame (Trie.insertAll Trie.new [("car".toList, 9, 7)]) "cat".toList 0 8).1
      "car".toList (by decide),
    by decide,
    (insert_frame (Trie.insertAll Trie.new [("car".toList, 9, 7)]) "cat".toList 0 8).2.1
      "co".toList (by decide)⟩

theorem fieldsAt_insert_insert (n : TrieNode) (t1 t2 : List Char) (o1 l1 o2 l2 : Int)
    (h : t1 ≠ t2) (w : List Char) :
    TrieNode.fieldsAt ((n.insertFrom t1 o1 l1).insertFrom t2 o2 l2) w
      = TrieNode.fieldsAt ((n.insertFrom t2 o2 l2).insertFrom t1 o1 l1) w := by
  simp only [TrieNode.fieldsAt_insertFrom]
  by_cases h1 : w = t1
  · subst h1
    have h21 : ¬ w = t2 := h
    by_cases hp : w <+: t2 <;> simp [h21, hp]
  · by_cases h2 : w = t2
    · subst h2
      by_cases hp : w <+: t1 <;> simp [h1, hp]
    · by_cases hp1 : w <+: t1 <;> by_cases hp2 : w <+: t2 <;> simp [h1, h2, hp1, hp2]

/-- C18: for every trie and all texts `t1 ≠ t2`, inserting `t1` then `t2` gives the
same map as inserting `t2` then `t1`: along every path the same nodes exist and
store the same terminal flag and position, and every count and every lookup has
the same answer; and inserting a record twice gives the very trie obtained by
inserting it once. -/
theorem insert_order_irrelevant (tr : Trie) (t1 t2 : List Char) (o1 l1 o2 l2 : Int)
    (h : t1 ≠ t2) :
    Trie.sameMap ((tr.insert t1 o1 l1).insert t2 o2 l2) ((tr.insert t2 o2 l2).insert t1 o1 l1)
      ∧ (∀ p, ((tr.insert t1 o1 l1).insert t2 o2 l2).countWordsWithPrefix p
            = ((tr.insert t2 o2 l2).insert t1 o1 l1).countWordsWithPrefix p)
      ∧ (∀ q, ((tr.insert t1 o1 l1).insert t2 o2 l2).getPositionAndLength q
            = ((tr.insert t2 o2 l2).insert t1 o1 l1).getPositionAndLength q)
      ∧ (tr.insert t1 o1 l1).insert t1 o1 l1 = tr.insert t1 o1 l1 := by
  refine ⟨?_, ?_, ?_, ?_⟩
  · intro w
    exact fieldsAt_insert_insert tr.root t1 t2 o1 l1 o2 l2 h w
  · intro p
    have h12 : ¬ t2 = t1 := fun e => h e.symm
    simp only [Trie.countWordsWithPrefix_insert, Trie.isTerminal_insert, h, h12,
      decide_False, Bool.false_or]
    omega
  · intro q
    simp only [Trie.getPositionAndLength_insert]
    by_cases hq1 : q = t1
    · have hq2 : ¬ q = t2 := fun e => h (hq1.symm.trans e)
      simp [hq1, h]
    · simp [hq1]
  · show Trie.mk _ = Trie.mk _
    congr 1
    exact TrieNode.insertFrom_idem t1 o1 l1 tr.root

/-- Witness for C18 on the empty trie with the texts `a` and `b`. -/
theorem insert_order_irrelevant_witness :
    "a".toList ≠ "b".toList
      ∧ Trie.sameMap ((Trie.new.insert "a".toList 0 3).insert "b".toList 4 3)
          ((Trie.new.insert "b".toList 4 3).insert "a".toList 0 3)
      ∧ (Trie.new.insert "a".toList 0 3).insert "a".toList 0 3 = Trie.new.insert "a".toList 0 3 :=
  ⟨by decide, (insert_order_irrelevant Trie.new "a".toList "b".toList 0 3 4 3 (by decide)).1,
    (insert_order_irrelevant Trie.new "a".toList "b".toList 0 3 4 3 (by decide)).2.2.2⟩
